import Mathlib

/-!
Verification of the mention-analysis pipeline of the `buscador-menciones`
repository (`analisis_core.py`, `datos_repository.py`).

The Python code is shallowly embedded: texts are `List Char`, the regex
substitutions of `limpiar_texto` are implemented as left-to-right scanners with
an explicit fuel argument (fuel-structural recursion keeps every definition
kernel-computable), dictionaries are insertion-ordered association lists, and
database rows are plain structures.  External collaborators (the DuckDuckGo
search client of `fuentes_web.py`, `pandas` date parsing/formatting, the NLTK
stopword resource, and the `pandas` column sort) are passed in as parameters,
mirroring the spec's "external collaborators" boundary.
-/

namespace BuscadorMenciones

/-! ## Character classes

`pySpace` models Python's regex class `\s` / `str.split()` / `str.strip()`
whitespace on the ASCII range (space, tab, newline, carriage return, vertical
tab, form feed).  `pyWordChar` models `\w` on the alphabet relevant to this
pipeline: ASCII alphanumerics, underscore, and the Spanish accented letters
(which are Unicode word characters in Python).  `pyLower` models `str.lower`
on ASCII plus the uppercase Spanish accented letters; `unidecodeChar` models
`unidecode` on the characters that can reach it inside `limpiar_texto`
(lowercase ASCII, the accented Spanish letters, whitespace). -/

def pySpace (c : Char) : Bool :=
  c = ' ' || c = '\t' || c = '\n' || c = '\r' || c = '\x0b' || c = '\x0c'

def isAsciiLower (c : Char) : Bool :=
  'a' ≤ c && c ≤ 'z'

def isAsciiUpper (c : Char) : Bool :=
  'A' ≤ c && c ≤ 'Z'

def pyWordChar (c : Char) : Bool :=
  isAsciiLower c || isAsciiUpper c || c.isDigit || c = '_' ||
    c = 'á' || c = 'é' || c = 'í' || c = 'ó' || c = 'ú' || c = 'ñ' || c = 'ü' ||
    c = 'Á' || c = 'É' || c = 'Í' || c = 'Ó' || c = 'Ú' || c = 'Ñ' || c = 'Ü'

def pyLower (c : Char) : Char :=
  if isAsciiUpper c then Char.ofNat (c.toNat + 32)
  else if c = 'Á' then 'á'
  else if c = 'É' then 'é'
  else if c = 'Í' then 'í'
  else if c = 'Ó' then 'ó'
  else if c = 'Ú' then 'ú'
  else if c = 'Ñ' then 'ñ'
  else if c = 'Ü' then 'ü'
  else c

/-- The character class `[a-záéíóúñü]` of `limpiar_texto`'s filter regex. -/
def spanishLetter (c : Char) : Bool :=
  isAsciiLower c || c = 'á' || c = 'é' || c = 'í' || c = 'ó' || c = 'ú' ||
    c = 'ñ' || c = 'ü'

def unidecodeChar (c : Char) : Char :=
  if c = 'á' then 'a'
  else if c = 'é' then 'e'
  else if c = 'í' then 'i'
  else if c = 'ó' then 'o'
  else if c = 'ú' then 'u'
  else if c = 'ñ' then 'n'
  else if c = 'ü' then 'u'
  else c

/-! ## The regex substitutions of `limpiar_texto`

Each `re.sub` is a left-to-right scan over the string: at each position the
pattern is tried; on a match the whole (leftmost, greedy) match is replaced by
one space and scanning resumes after it, otherwise the character is kept and
scanning advances one position.  The `F`-suffixed versions take a fuel
argument (any fuel ≥ the list length computes the scan; the wrappers pass the
length). -/

/-- The generic `re.sub(pattern, " ", s)` scanner: at each position, `paso`
tries the pattern; on a match it returns the remainder after the (leftmost,
greedy) match, which is replaced by one space; otherwise the character is
kept.  Fuel-structural recursion (any fuel ≥ the list length computes the
scan, provided each match consumes at least one character). -/
def reSubF (paso : List Char → Option (List Char)) : Nat → List Char → List Char
  | 0, l => l
  | _ + 1, [] => []
  | fuel + 1, c :: cs =>
    match paso (c :: cs) with
    | some rest => ' ' :: reSubF paso fuel rest
    | none => c :: reSubF paso fuel cs

def reSub (paso : List Char → Option (List Char)) (l : List Char) : List Char :=
  reSubF paso l.length l

/-- A match of `http\S+|www\.\S+` anchored at the head of the list: the
literal followed by a greedy nonempty run of non-whitespace.  Returns the
remainder of the list after the match. -/
def matchUrlAt (l : List Char) : Option (List Char) :=
  match l with
  | c1 :: c2 :: c3 :: c4 :: c5 :: rest =>
    if c1 = 'h' && c2 = 't' && c3 = 't' && c4 = 'p' && !pySpace c5 then
      some ((c5 :: rest).dropWhile (fun x => !pySpace x))
    else if c1 = 'w' && c2 = 'w' && c3 = 'w' && c4 = '.' && !pySpace c5 then
      some ((c5 :: rest).dropWhile (fun x => !pySpace x))
    else none
  | _ => none

/-- `re.sub(r"http\S+|www\.\S+", " ", s)`. -/
def subUrls (l : List Char) : List Char := reSub matchUrlAt l

/-- A match of `[@#]\w+` anchored at the head: an `@` or `#` followed by a
greedy nonempty run of word characters. -/
def matchAtHashAt : List Char → Option (List Char)
  | [] => none
  | c :: cs =>
    if (c = '@' || c = '#') && (cs.head?.elim false pyWordChar) then
      some (cs.dropWhile pyWordChar)
    else none

/-- `re.sub(r"[@#]\w+", " ", s)`. -/
def subAtHash (l : List Char) : List Char := reSub matchAtHashAt l

/-- A match of `\d+` anchored at the head: a greedy nonempty run of digits. -/
def matchDigitsAt : List Char → Option (List Char)
  | [] => none
  | c :: cs => if c.isDigit then some (cs.dropWhile Char.isDigit) else none

/-- `re.sub(r"\d+", " ", s)`. -/
def subDigits (l : List Char) : List Char := reSub matchDigitsAt l

/-- `re.sub(r"[^a-záéíóúñü\s]", " ", s)`: a single-character class, hence a
plain map. -/
def subNonAlpha (l : List Char) : List Char :=
  l.map (fun c => if spanishLetter c || pySpace c then c else ' ')

def unidecodeList (l : List Char) : List Char := l.map unidecodeChar

/-- A match of `\s+` anchored at the head: a greedy nonempty whitespace run. -/
def matchSpacesAt : List Char → Option (List Char)
  | [] => none
  | c :: cs => if pySpace c then some (cs.dropWhile pySpace) else none

/-- `re.sub(r"\s+", " ", s)`. -/
def collapseSpaces (l : List Char) : List Char := reSub matchSpacesAt l

/-- `str.strip()`: drop leading and trailing whitespace. -/
def stripSpaces (l : List Char) : List Char :=
  (l.dropWhile pySpace).rdropWhile pySpace

/-- `limpiar_texto` (`analisis_core.py` lines 56-69; the identical copy in
`analisis_menciones.py` lines 66-90): lowercase, drop URLs, drop `@`/`#`
tokens, drop digit runs, replace everything outside the Spanish lowercase
alphabet and whitespace by a space, strip diacritics, collapse whitespace and
trim.  The Python function also maps any non-`str` argument to the empty
string; the embedding's domain is strings. -/
def limpiar_texto (texto : List Char) : List Char :=
  stripSpaces (collapseSpaces (unidecodeList (subNonAlpha
    (subDigits (subAtHash (subUrls (texto.map pyLower)))))))

/-! ## Splitting and counting -/

/-- `str.split()` with no argument: maximal runs of non-whitespace, empty
pieces discarded. -/
def pySplitF : Nat → List Char → List (List Char)
  | 0, _ => []
  | _ + 1, [] => []
  | fuel + 1, c :: cs =>
    if pySpace c then pySplitF fuel cs
    else ((c :: cs).takeWhile (fun x => !pySpace x)) ::
      pySplitF fuel ((c :: cs).dropWhile (fun x => !pySpace x))

def pySplit (l : List Char) : List (List Char) := pySplitF l.length l

/-- Whether the character at position `p` of `texto` is a word character
(out-of-range positions count as non-word, as for Python's `\b`). -/
def wordAt (texto : List Char) (p : Nat) : Bool :=
  (texto[p]?).elim false pyWordChar

def prevWordAt (texto : List Char) : Nat → Bool
  | 0 => false
  | q + 1 => wordAt texto q

/-- Python's `\b`: a word boundary sits at position `p` iff exactly one of the
characters at `p - 1` and `p` is a word character. -/
def bdry (texto : List Char) (p : Nat) : Bool :=
  prevWordAt texto p != wordAt texto p

/-- A match of the pattern `\b` + `re.escape(term)` + `\b` anchored at
position `p` of `texto`. -/
def matchEn (texto term : List Char) (p : Nat) : Bool :=
  term.isPrefixOf (texto.drop p) && bdry texto p && bdry texto (p + term.length)

/-- The scan performed by `re.findall` for the pattern above: leftmost
matches, non-overlapping (scanning resumes right after each match). -/
def scanFindallF (texto term : List Char) : Nat → Nat → Nat
  | _, 0 => 0
  | p, fuel + 1 =>
    if texto.length < p then 0
    else if matchEn texto term p then 1 + scanFindallF texto term (p + term.length) fuel
    else scanFindallF texto term (p + 1) fuel

/-- `len(re.findall(r"\b" + re.escape(term) + r"\b", texto))` for a nonempty
`term`. -/
def reFindallCount (texto term : List Char) : Nat :=
  scanFindallF texto term 0 (texto.length + 1)

/-- Python's `min` over a nonempty list of counts (the `[]` case is
unreachable in the call sites, which guard against empty term lists). -/
def listMin : List Nat → Nat
  | [] => 0
  | x :: xs => xs.foldl Nat.min x

/-- `MODOS_COINCIDENCIA_VALIDOS` (`analisis_core.py` line 24). -/
def MODOS_COINCIDENCIA_VALIDOS : List String :=
  ["frase_exacta", "todas_las_palabras", "cualquiera"]

/-- `_contar_menciones_termino` (`analisis_core.py` lines 92-114).  Any mode
other than `frase_exacta` and `todas_las_palabras` falls through to the
`cualquiera` sum. -/
def contar_menciones_termino (texto_limpio termino : List Char) (modo : String) : Nat :=
  let termino_limpio := limpiar_texto termino
  if termino_limpio = [] then 0
  else
    let palabras_termino := pySplit termino_limpio
    if palabras_termino = [] then 0
    else
      let palabras_texto := pySplit texto_limpio
      if modo = "frase_exacta" then reFindallCount texto_limpio termino_limpio
      else if modo = "todas_las_palabras" then
        listMin (palabras_termino.map (fun p => palabras_texto.count p))
      else (palabras_termino.map (fun p => palabras_texto.count p)).sum

/-! ## Insertion-ordered dictionaries (Python `dict` / `Counter`) -/

def dictKeys (d : List (List Char × Nat)) : List (List Char) := d.map (·.1)

/-- `d[k] = v` on an insertion-ordered dictionary: update in place if the key
exists, else append. -/
def dictInsert (d : List (List Char × Nat)) (k : List Char) (v : Nat) :
    List (List Char × Nat) :=
  if d.any (fun kv => kv.1 == k) then
    d.map (fun kv => if kv.1 == k then (k, v) else kv)
  else d ++ [(k, v)]

/-- `d.get(k, 0)`. -/
def dictGetD (d : List (List Char × Nat)) (k : List Char) : Nat :=
  ((d.find? (fun kv => kv.1 == k)).map (·.2)).getD 0

/-- `_contar_menciones_en_texto` (`analisis_core.py` lines 117-125). -/
def contar_menciones_en_texto (texto_limpio : List Char)
    (grupo_terminos : List (List Char)) (modo : String) : List (List Char × Nat) :=
  grupo_terminos.foldl
    (fun conteo termino =>
      dictInsert conteo termino (contar_menciones_termino texto_limpio termino modo)) []

/-- First-occurrence-order deduplication (the key order of a Python `dict` /
`set` built by insertion). -/
def dedupPrimeroF : Nat → List (List Char) → List (List Char)
  | 0, l => l
  | _ + 1, [] => []
  | fuel + 1, x :: xs => x :: dedupPrimeroF fuel (xs.filter (fun y => !(y == x)))

def dedupPrimero (l : List (List Char)) : List (List Char) := dedupPrimeroF l.length l

/-- `_puntaje_relevancia` (`analisis_core.py` lines 128-139): word-overlap
ratio.  Python computes the final division in floating point; the embedding
uses exact rationals. -/
def puntaje_relevancia (texto_limpio termino : List Char) : ℚ :=
  let termino_limpio := limpiar_texto termino
  if termino_limpio = [] then 0
  else
    let palabras_texto := dedupPrimero (pySplit texto_limpio)
    let palabras_termino := dedupPrimero (pySplit termino_limpio)
    if palabras_texto = [] || palabras_termino = [] then 0
    else
      ((palabras_termino.filter (fun p => palabras_texto.contains p)).length : ℚ) /
        (palabras_termino.length : ℚ)

/-- `max(menciones_por_termino, key=menciones_por_termino.get)`: Python's
`max` iterates the keys in insertion order and keeps the first key whose value
is maximal. -/
def argmaxVal : List Char → Nat → List (List Char × Nat) → List Char
  | best, _, [] => best
  | best, bv, (k, v) :: rest =>
    if bv < v then argmaxVal k v rest else argmaxVal best bv rest

def argmaxFirst : List (List Char × Nat) → List Char
  | [] => []
  | (k, v) :: rest => argmaxVal k v rest

/-! ## A model of `urllib.parse.urlparse(url).netloc` -/

def esquemaChar (c : Char) : Bool :=
  c.isAlpha || c.isDigit || c = '+' || c = '-' || c = '.'

/-- Removes a leading `scheme:` if present. -/
def quitarEsquema (url : List Char) : List Char :=
  match url with
  | [] => []
  | c :: _ =>
    if c.isAlpha then
      match url.dropWhile esquemaChar with
      | ':' :: rest => rest
      | _ => url
    else url

/-- Model of the Python standard library's `urlparse(url).netloc`: the
authority component, present only when the remainder after the scheme starts
with `//`. -/
def netloc (url : List Char) : List Char :=
  match quitarEsquema url with
  | '/' :: '/' :: rest => rest.takeWhile (fun c => !(c = '/' || c = '?' || c = '#'))
  | _ => []

/-! ## Data model -/

/-- `ResultadoBusqueda` (`fuentes_web.py` lines 23-34). -/
structure ResultadoBusqueda where
  url : List Char
  titulo : List Char
  dominio : List Char
  snippet : List Char
  texto : List Char
  fecha_publicacion : Option (List Char)
  canonica : Option (List Char)
  fuente : List Char
  profundidad : Nat
deriving DecidableEq, Repr

/-- One row of the page table built by `_procesar_resultado`
(`analisis_core.py` lines 250-266).  `menciones_termino_idx` holds the
positional `menciones_termino_{idx}` columns; `fecha_publicacion_dt` is the
column added by the orchestrator loop.  Python's float relevance score is
embedded as an exact rational. -/
structure Registro where
  titulo : List Char
  url : List Char
  dominio : List Char
  texto : List Char
  fecha_publicacion : Option (List Char)
  menciones_totales_pagina : Nat
  menciones_por_termino : List (List Char × Nat)
  termino_encontrado : List Char
  puntaje_relevancia : ℚ
  profundidad : Nat
  canonico : List Char
  palabras_clave_asociadas : List Char
  menciones_termino_idx : List Nat
  fecha_publicacion_dt : Option Int := none
deriving DecidableEq, Repr

/-- `_normalizar_grupo_terminos` (`analisis_core.py` lines 86-89). -/
def normalizar_grupo_terminos (grupo_terminos : List (List Char)) : List (List Char) :=
  ((grupo_terminos.filter
    (fun t => !t.isEmpty && !(stripSpaces t).isEmpty)).map stripSpaces).take 5

/-- `_procesar_resultado` (`analisis_core.py` lines 234-268). -/
def procesar_resultado (resultado : ResultadoBusqueda) (grupo_terminos : List (List Char))
    (modo_coincidencia : String) : Option Registro :=
  let texto_limpio := limpiar_texto resultado.texto
  let menciones_por_termino :=
    contar_menciones_en_texto texto_limpio grupo_terminos modo_coincidencia
  let menciones_totales := (menciones_por_termino.map (·.2)).sum
  if menciones_totales = 0 then none
  else
    let termino_principal := argmaxFirst menciones_por_termino
    some {
      titulo := resultado.titulo
      url := resultado.url
      dominio := if resultado.dominio = [] then netloc resultado.url else resultado.dominio
      texto := resultado.texto
      fecha_publicacion := resultado.fecha_publicacion
      menciones_totales_pagina := menciones_totales
      menciones_por_termino := menciones_por_termino
      termino_encontrado := termino_principal
      puntaje_relevancia := puntaje_relevancia texto_limpio termino_principal
      profundidad := resultado.profundidad
      canonico :=
        match resultado.canonica with
        | some c => if c = [] then resultado.url else c
        | none => resultado.url
      palabras_clave_asociadas :=
        List.intercalate (", ".toList) ((dedupPrimero (pySplit texto_limpio)).take 5)
      menciones_termino_idx :=
        grupo_terminos.map (fun t => dictGetD menciones_por_termino t)
    }

/-! ## Storage layer (`datos_repository.py`)

Rows are modelled structurally; term ids are `index + 1` positions in the
`terminos` table (SQL autoincrement).  The `fecha_primera_vez_vista` /
`fecha_ultima_vez_vista` timestamp columns delegate to the wall clock and are
omitted. -/

structure PaginaRow where
  id : Nat
  url : List Char
  dominio : List Char
  titulo : List Char
  texto : List Char
  fecha_publicacion : Option Int
deriving DecidableEq, Repr

structure BD where
  paginas : List PaginaRow
  terminos : List (List Char)
  menciones : List (Nat × Nat × Int)
deriving DecidableEq, Repr

def bdVacia : BD := { paginas := [], terminos := [], menciones := [] }

/-- `_obtener_o_crear_termino` (`datos_repository.py` lines 112-120). -/
def obtener_o_crear_termino (bd : BD) (termino_texto : List Char) : BD × Nat :=
  match bd.terminos.findIdx? (fun t => t == termino_texto) with
  | some i => (bd, i + 1)
  | none => ({ bd with terminos := bd.terminos ++ [termino_texto] }, bd.terminos.length + 1)

/-- `guardar_pagina` (`datos_repository.py` lines 123-148): upsert keyed by
URL; on update, only previously-missing fields are filled in. -/
def guardar_pagina (bd : BD) (url titulo texto : List Char)
    (fecha_publicacion : Option Int) : BD × Nat :=
  let dominio := netloc url
  match bd.paginas.find? (fun p => p.url == url) with
  | some p =>
    let p2 : PaginaRow := { p with
      titulo := if p.titulo = [] then titulo else p.titulo
      texto := if p.texto = [] then texto else p.texto
      dominio := if p.dominio = [] then dominio else p.dominio
      fecha_publicacion := p.fecha_publicacion.orElse (fun _ => fecha_publicacion) }
    ({ bd with paginas := bd.paginas.map (fun q => if q.url == url then p2 else q) }, p.id)
  | none =>
    let nuevoId := (bd.paginas.map (·.id)).foldl Nat.max 0 + 1
    ({ bd with paginas := bd.paginas ++
        [{ id := nuevoId, url := url, dominio := dominio, titulo := titulo,
           texto := texto, fecha_publicacion := fecha_publicacion }] },
     nuevoId)

/-- `registrar_menciones` (`datos_repository.py` lines 151-177): for each
term of the mapping, entries with a non-positive count are skipped; otherwise
the `(pagina_id, termino_id)` mention row is updated in place or inserted. -/
def registrar_menciones (bd : BD) (pagina_id : Nat)
    (menciones_por_termino : List (List Char × Int)) : BD :=
  if !bd.paginas.any (fun p => p.id == pagina_id) then bd
  else
    menciones_por_termino.foldl
      (fun bd1 kv =>
        if kv.2 ≤ 0 then bd1
        else
          let par := obtener_o_crear_termino bd1 kv.1
          if par.1.menciones.any (fun m => m.1 == pagina_id && m.2.1 == par.2) then
            { par.1 with menciones := (par.1.menciones.map
                (fun m => if m.1 == pagina_id && m.2.1 == par.2 then (m.1, par.2, kv.2) else m)) }
          else { par.1 with menciones := par.1.menciones ++ [(pagina_id, par.2, kv.2)] })
      bd

/-! ## Word association (`contar_palabras_asociadas`) -/

/-- `_generar_palabras_limpias` (`analisis_core.py` lines 145-153). -/
def generar_palabras_limpias (textos : List (List Char)) : List (List Char) :=
  textos.foldl
    (fun palabras texto =>
      let texto_limpio := limpiar_texto texto
      if texto_limpio = [] then palabras else palabras ++ pySplit texto_limpio) []

/-- `str.isnumeric()` on the ASCII range. -/
def pyIsNumeric (l : List Char) : Bool :=
  !l.isEmpty && l.all Char.isDigit

/-- `collections.Counter` of a word list: counts keyed in first-occurrence
order. -/
def counterInc (d : List (List Char × Nat)) (k : List Char) : List (List Char × Nat) :=
  if d.any (fun kv => kv.1 == k) then
    d.map (fun kv => if kv.1 == k then (kv.1, kv.2 + 1) else kv)
  else d ++ [(k, 1)]

def counterOf (ws : List (List Char)) : List (List Char × Nat) :=
  ws.foldl counterInc []

/-- `Counter.most_common(n)`: stable descending sort by count (CPython
documents it as `sorted(...)[:n]`, and `sorted` is stable), truncated. -/
def mostCommon (contador : List (List Char × Nat)) (n : Nat) : List (List Char × Nat) :=
  (contador.mergeSort (fun a b => Nat.ble b.2 a.2)).take n

/-- The noise-token set of `contar_palabras_asociadas` line 191. -/
def RUIDO : List (List Char) :=
  ["amp".toList, "utm".toList, "https".toList, "http".toList]

/-- `contar_palabras_asociadas` (`analisis_core.py` lines 156-198).  The
process-wide NLTK stopword cache is the `stopwords_es` parameter (an external
resource; a load failure degrades it to `[]`).  Returns the top-`n` table and
the full counter. -/
def contar_palabras_asociadas (stopwords_es : List (List Char))
    (paginas_df : List Registro) (grupo_terminos : List (List Char)) (top_n : Nat) :
    List (List Char × Nat) × List (List Char × Nat) :=
  if paginas_df.isEmpty then ([], [])
  else
    let textos_relevantes :=
      (paginas_df.filter (fun r => 0 < r.menciones_totales_pagina)).map (·.texto)
    let todas_las_palabras := generar_palabras_limpias textos_relevantes
    let palabras_terminos := grupo_terminos.foldl
      (fun s termino =>
        (pySplit (limpiar_texto termino)).foldl
          (fun s1 palabra =>
            let pn := unidecodeList (palabra.map pyLower)
            if pn = [] then s1 else if s1.contains pn then s1 else s1 ++ [pn]) s) []
    let palabras_filtradas := todas_las_palabras.foldl
      (fun acc palabra =>
        let pn := unidecodeList (palabra.map pyLower)
        if pn.length ≤ 3 then acc
        else if stopwords_es.contains pn then acc
        else if palabras_terminos.contains pn then acc
        else if pyIsNumeric pn then acc
        else if ("http".toList).isPrefixOf pn then acc
        else if RUIDO.contains pn then acc
        else acc ++ [pn]) []
    let contador := counterOf palabras_filtradas
    (mostCommon contador top_n, contador)

/-! ## The orchestrator (`analizar_menciones_web`)

External collaborators are parameters: the search-and-fetch client
(`buscar_paginas_web` of `fuentes_web.py`, network-bound), `pandas` date
parsing (`pd.to_datetime(..., errors="coerce")`, with `NaT` folded into
`none`) and ISO date formatting, the NLTK stopword set, and the `pandas`
single-column descending sort (`sort_values(..., ascending=False)`, whose
default `quicksort` gives no tie-order guarantee). -/

/-- The summary dict of `analizar_menciones_web`.  The zero-page summary of
lines 320-341 lacks the `max_resultados_muestra` and
`incluye_paginas_sin_fecha` keys; those fields are `none` there. -/
structure Resumen where
  terminos : List (List Char)
  fecha_desde : List Char
  fecha_hasta : List Char
  profundidad : Nat
  modo_coincidencia : String
  dominio_filtro : Option (List Char)
  max_resultados_muestra : Option Nat := none
  total_paginas_consultadas : Nat
  paginas_con_menciones : Nat
  menciones_totales_grupo : Nat
  menciones_por_termino : List (List Char × Nat)
  promedio_menciones_por_pagina : ℚ
  paginas_top_mostradas : Nat
  dominios_top : List (List Char × Nat)
  paginas_antes_filtro_fecha : Nat
  paginas_despues_filtro_fecha : Nat
  paginas_sin_fecha : Nat
  paginas_excluidas_por_fecha : Nat
  paginas_en_rango_fecha : Nat
  fecha_mas_antigua : List Char
  fecha_mas_reciente : List Char
  incluye_paginas_sin_fecha : Option Bool := none
deriving DecidableEq

structure Colaboradores where
  buscar_paginas_web :
    List (List Char) → Nat → String → Option (List Char) → Bool → List ResultadoBusqueda
  to_datetime : List Char → Option Int
  iso_of : Int → List Char
  stopwords_es : List (List Char)
  sort_values_desc : List Registro → List Registro

/-- `parsear_fecha_publicacion` (`analisis_core.py` lines 72-80): falsy
input gives `None`; otherwise `pd.to_datetime(..., errors="coerce")`, whose
failure (`NaT`) is folded into `none`. -/
def parsear_fecha_publicacion (colab : Colaboradores) : Option (List Char) → Option Int
  | none => none
  | some s => if s = [] then none else colab.to_datetime s

/-- The per-page persistence of `analizar_menciones_web` lines 312-315:
upsert the page, then record its mention counts. -/
def persistir_registro (bd : BD) (registro : Registro) : BD :=
  let par := guardar_pagina bd registro.url registro.titulo registro.texto
    registro.fecha_publicacion_dt
  registrar_menciones par.1 par.2
    (registro.menciones_por_termino.map (fun kv => (kv.1, (kv.2 : Int))))

/-- The result loop of `analizar_menciones_web` (lines 299-316): process each
raw result, skip pages without mentions, fix up the publication date fields,
persist, and collect the surviving records in discovery order. -/
def procesar_y_persistir (colab : Colaboradores) (grupo_terminos : List (List Char))
    (modo : String) : List ResultadoBusqueda → BD → List Registro × BD
  | [], bd => ([], bd)
  | resultado :: resto, bd =>
    match procesar_resultado resultado grupo_terminos modo with
    | none => procesar_y_persistir colab grupo_terminos modo resto bd
    | some registro =>
      let fecha_dt := parsear_fecha_publicacion colab registro.fecha_publicacion
      let registro2 := { registro with
        fecha_publicacion_dt := fecha_dt
        fecha_publicacion := (some (match fecha_dt with
          | some d => colab.iso_of d
          | none => "sin_fecha".toList)) }
      let bd2 := persistir_registro bd registro2
      let par := procesar_y_persistir colab grupo_terminos modo resto bd2
      (registro2 :: par.1, par.2)

/-- Python `dict` keys can be of mixed type; `PROFUNDIDAD_OPCIONES` is keyed
by the integers 1-5 but is also subscripted with the string "Normal". -/
inductive Clave where
  | int (n : Nat)
  | str (s : String)
deriving DecidableEq, Repr

/-- `PROFUNDIDAD_OPCIONES` (`fuentes_web.py` line 36). -/
def PROFUNDIDAD_OPCIONES : List (Clave × Nat) :=
  [(Clave.int 1, 60), (Clave.int 2, 120), (Clave.int 3, 180),
   (Clave.int 4, 240), (Clave.int 5, 300)]

inductive ErrPy where
  | keyError (k : Clave)
deriving DecidableEq, Repr

/-- Python subscription `d[k]`: raises `KeyError` when the key is absent. -/
def pyDictIndex (d : List (Clave × Nat)) (k : Clave) : Except ErrPy Nat :=
  match d.find? (fun kv => kv.1 == k) with
  | some kv => Except.ok kv.2
  | none => Except.error (ErrPy.keyError k)

/-- Python `d.get(k, dflt)` (the default is supplied by the caller, who in
Python evaluates it eagerly). -/
def pyDictGet (d : List (Clave × Nat)) (k : Clave) (dflt : Nat) : Nat :=
  match d.find? (fun kv => kv.1 == k) with
  | some kv => kv.2
  | none => dflt

/-- The return triple of `analizar_menciones_web`: the page table, the
top-words table, and the summary dict (`none` models the empty placeholder
`{}` returned for an empty term group). -/
structure Salida where
  paginas : List Registro
  top_palabras : List (List Char × Nat)
  resumen : Option Resumen
deriving DecidableEq

/-- The zero-filled summary returned when no page survives
(`analisis_core.py` lines 320-341). -/
def resumen_sin_paginas (grupo : List (List Char)) (fecha_desde fecha_hasta : List Char)
    (profundidad : Nat) (modo : String) (dominio_filtro : Option (List Char))
    (total_consultadas : Nat) : Resumen :=
  { terminos := grupo
    fecha_desde := fecha_desde
    fecha_hasta := fecha_hasta
    profundidad := profundidad
    modo_coincidencia := modo
    dominio_filtro := dominio_filtro
    paginas_antes_filtro_fecha := 0
    paginas_despues_filtro_fecha := 0
    paginas_sin_fecha := 0
    paginas_excluidas_por_fecha := 0
    total_paginas_consultadas := total_consultadas
    paginas_con_menciones := 0
    menciones_totales_grupo := 0
    menciones_por_termino := grupo.foldl (fun d t => dictInsert d t 0) []
    promedio_menciones_por_pagina := 0
    paginas_top_mostradas := 0
    dominios_top := []
    paginas_en_rango_fecha := 0
    fecha_mas_antigua := "sin_fecha".toList
    fecha_mas_reciente := "sin_fecha".toList }

/-- The `df.groupby("dominio")["url"].count().sort_values(ascending=False)
.head(10).to_dict()` chain of line 404.  The tie order of the inner `pandas`
sort is library-internal; this value sits beyond the `KeyError` of line 414
and is unobservable. -/
def dominios_top_de (paginas : List Registro) : List (List Char × Nat) :=
  let claves := dedupPrimero (paginas.map (·.dominio))
  let cuentas := claves.map (fun d => (d, (paginas.filter (fun r => r.dominio == d)).length))
  (cuentas.mergeSort (fun a b => Nat.ble b.2 a.2)).take 10

/-- `analizar_menciones_web` (`analisis_core.py` lines 271-434).  The final
`BD` is returned alongside the `Except` result because the per-page
persistence of the loop has already happened when the summary construction of
line 414 evaluates `PROFUNDIDAD_OPCIONES.get(profundidad,
PROFUNDIDAD_OPCIONES["Normal"])`: Python evaluates the `.get` default
eagerly, and `"Normal"` is not a key of the integer-keyed dict, so every run
with a non-empty page table raises `KeyError: 'Normal'` there.  The branch
below the successful lookup is therefore unreachable; it still models lines
344-432 (`inicializar_bd` only issues DDL and does not change the row
model). -/
def analizar_menciones_web (colab : Colaboradores) (grupo_terminos : List (List Char))
    (fecha_desde fecha_hasta : List Char) (profundidad : Nat) (modo_coincidencia : String)
    (dominio_filtro : Option (List Char)) (top_n_palabras : Nat)
    (incluir_paginas_sin_fecha : Bool) (crawl_extendido : Bool) (bd : BD) :
    Except ErrPy Salida × BD :=
  let grupo := normalizar_grupo_terminos grupo_terminos
  if grupo = [] then (Except.ok { paginas := [], top_palabras := [], resumen := none }, bd)
  else
    let modo :=
      if MODOS_COINCIDENCIA_VALIDOS.contains modo_coincidencia then modo_coincidencia
      else "frase_exacta"
    let resultados_web :=
      colab.buscar_paginas_web grupo profundidad modo dominio_filtro crawl_extendido
    let par := procesar_y_persistir colab grupo modo resultados_web bd
    let registros := par.1
    let bd2 := par.2
    if registros = [] then
      let resumen0 := resumen_sin_paginas grupo fecha_desde fecha_hasta profundidad
        modo dominio_filtro resultados_web.length
      (Except.ok { paginas := [], top_palabras := [], resumen := some resumen0 }, bd2)
    else
      match pyDictIndex PROFUNDIDAD_OPCIONES (Clave.str "Normal") with
      | Except.error e => (Except.error e, bd2)
      | Except.ok valor_normal =>
        let refechado := registros.map (fun r => { r with
          fecha_publicacion_dt := (match r.fecha_publicacion with
            | some s => colab.to_datetime s
            | none => none) })
        let total_antes_filtro := refechado.length
        let fecha_desde_dt := if fecha_desde = [] then none else colab.to_datetime fecha_desde
        let fecha_hasta_dt := if fecha_hasta = [] then none else colab.to_datetime fecha_hasta
        let mask_rango : Registro → Bool := fun r =>
          match r.fecha_publicacion_dt with
          | none => false
          | some d =>
            (match fecha_desde_dt with | none => true | some a => decide (a ≤ d)) &&
            (match fecha_hasta_dt with | none => true | some b => decide (d ≤ b))
        let paginas_en_rango := (refechado.filter mask_rango).length
        let mask_final : Registro → Bool := fun r =>
          mask_rango r || (incluir_paginas_sin_fecha && r.fecha_publicacion_dt.isNone)
        let filtrado := (refechado.filter mask_final).map (fun r => { r with
          fecha_publicacion := (some (match r.fecha_publicacion_dt with
            | some d => colab.iso_of d
            | none => "Desconocida".toList)) })
        let paginas_sin_fecha := (filtrado.filter (fun r => r.fecha_publicacion_dt.isNone)).length
        let paginas_despues_filtro := filtrado.length
        let paginas_excluidas := total_antes_filtro - paginas_despues_filtro
        let conocidas := filtrado.filterMap (·.fecha_publicacion_dt)
        let fecha_min :=
          match conocidas with
          | [] => "sin_fecha".toList
          | x :: xs => colab.iso_of (xs.foldl min x)
        let fecha_max :=
          match conocidas with
          | [] => "sin_fecha".toList
          | x :: xs => colab.iso_of (xs.foldl max x)
        let ordenado := colab.sort_values_desc filtrado
        let top := contar_palabras_asociadas colab.stopwords_es ordenado grupo top_n_palabras
        let menciones_por_termino_total := grupo.enum.foldl
          (fun d it => dictInsert d it.2
            ((ordenado.map (fun r => r.menciones_termino_idx.getD it.1 0)).sum)) []
        let paginas_con_menciones :=
          (ordenado.filter (fun r => 0 < r.menciones_totales_pagina)).length
        let menciones_totales_grupo : Nat := (ordenado.map (·.menciones_totales_pagina)).sum
        let promedio : ℚ :=
          if 0 < paginas_con_menciones then
            (menciones_totales_grupo : ℚ) / (paginas_con_menciones : ℚ)
          else 0
        let resumen : Resumen := {
          terminos := grupo
          fecha_desde := fecha_desde
          fecha_hasta := fecha_hasta
          profundidad := profundidad
          modo_coincidencia := modo
          dominio_filtro := dominio_filtro
          max_resultados_muestra :=
            some (pyDictGet PROFUNDIDAD_OPCIONES (Clave.int profundidad) valor_normal)
          total_paginas_consultadas := resultados_web.length
          paginas_con_menciones := paginas_con_menciones
          menciones_totales_grupo := menciones_totales_grupo
          menciones_por_termino := menciones_por_termino_total
          promedio_menciones_por_pagina := promedio
          paginas_top_mostradas := ordenado.length
          dominios_top := dominios_top_de ordenado
          paginas_antes_filtro_fecha := total_antes_filtro
          paginas_despues_filtro_fecha := paginas_despues_filtro
          paginas_sin_fecha := paginas_sin_fecha
          paginas_excluidas_por_fecha := paginas_excluidas
          paginas_en_rango_fecha := paginas_en_rango
          fecha_mas_antigua := fecha_min
          fecha_mas_reciente := fecha_max
          incluye_paginas_sin_fecha := some incluir_paginas_sin_fecha }
        (Except.ok { paginas := ordenado, top_palabras := top.1, resumen := some resumen }, bd2)

/-! ## Specification-side predicates (used only in theorem statements and
proofs) -/

/-- The set of word-boundary-anchored occurrence positions of `term` in
`texto` — the declarative counterpart of the regex scan. -/
def ocurrencias (texto term : List Char) : Finset Nat :=
  (Finset.range (texto.length + 1)).filter (fun p => matchEn texto term p = true)

/-- `l` contains `http` followed by a non-whitespace character (the shape on
which the URL regex of `limpiar_texto` would still fire). -/
def TieneUrl (l : List Char) : Prop :=
  ∃ l₁ c l₂, l = l₁ ++ 'h' :: 't' :: 't' :: 'p' :: c :: l₂ ∧ pySpace c = false

/-- No two adjacent whitespace characters. -/
def SinDobleEspacio : List Char → Prop
  | a :: b :: l => ¬(pySpace a = true ∧ pySpace b = true) ∧ SinDobleEspacio (b :: l)
  | _ => True

/-- Segment-replacement simulation: `Reemp l l'` holds when `l'` is obtained
from `l` by replacing some disjoint nonempty segments by single spaces — the
shape of every `re.sub(..., " ", s)` output. -/
inductive Reemp : List Char → List Char → Prop
  | nil : Reemp [] []
  | keep (c : Char) {l l' : List Char} : Reemp l l' → Reemp (c :: l) (c :: l')
  | repl (seg : List Char) {l l' : List Char} :
      seg ≠ [] → Reemp l l' → Reemp (seg ++ l) (' ' :: l')

/-- The invariant characterising `limpiar_texto` outputs: only lowercase
ASCII letters and single interior spaces, no leading or trailing space, and
no `http` immediately followed by a non-space. -/
def EsTextoLimpio (l : List Char) : Prop :=
  (∀ c ∈ l, isAsciiLower c = true ∨ c = ' ') ∧
  SinDobleEspacio l ∧
  (∀ c, l.head? = some c → pySpace c = false) ∧
  (∀ c, l.getLast? = some c → pySpace c = false) ∧
  ¬TieneUrl l

/-! ## Concrete fixtures used by the witness theorems -/

def resultadoGato : ResultadoBusqueda := {
  url := "http://ejemplo.es/nota".toList
  titulo := "Nota".toList
  dominio := "ejemplo.es".toList
  snippet := []
  texto := "El gato subió al tejado y el gato bajó".toList
  fecha_publicacion := none
  canonica := none
  fuente := "ddg".toList
  profundidad := 1 }

/-- A concrete collaborator bundle: the search client returns one page
mentioning "gato"; dates never parse; the sort is the identity (any
`pandas`-contract sort works for the statements below). -/
def colabPrueba : Colaboradores := {
  buscar_paginas_web := fun _ _ _ _ _ => [resultadoGato]
  to_datetime := fun _ => none
  iso_of := fun _ => []
  stopwords_es := []
  sort_values_desc := id }

/-- The record `_procesar_resultado` produces for `resultadoGato` and the
group `["gato"]` in `frase_exacta` mode. -/
def registroGato : Registro := {
  titulo := "Nota".toList
  url := "http://ejemplo.es/nota".toList
  dominio := "ejemplo.es".toList
  texto := "El gato subió al tejado y el gato bajó".toList
  fecha_publicacion := none
  menciones_totales_pagina := 2
  menciones_por_termino := [("gato".toList, 2)]
  termino_encontrado := "gato".toList
  puntaje_relevancia :=
    puntaje_relevancia "el gato subio al tejado y el gato bajo".toList "gato".toList
  profundidad := 1
  canonico := "http://ejemplo.es/nota".toList
  palabras_clave_asociadas := "el, gato, subio, al, tejado".toList
  menciones_termino_idx := [2] }

/-- A page row with zero total mentions (its text notwithstanding). -/
def registroCero : Registro := {
  titulo := []
  url := "http://cero.es".toList
  dominio := "cero.es".toList
  texto := "hola mundo grande".toList
  fecha_publicacion := none
  menciones_totales_pagina := 0
  menciones_por_termino := [("gato".toList, 0)]
  termino_encontrado := []
  puntaje_relevancia := 0
  profundidad := 1
  canonico := []
  palabras_clave_asociadas := []
  menciones_termino_idx := [0] }

/-- A storage state holding one page and no mention rows. -/
def bdPrueba : BD := {
  paginas := [{ id := 1, url := "http://a.es".toList, dominio := "a.es".toList,
                titulo := [], texto := [], fecha_publicacion := none }]
  terminos := []
  menciones := [] }

/-- A per-term count mapping holding a zero entry and a positive entry. -/
def mptPrueba : List (List Char × Int) := [("cero".toList, 0), ("dos".toList, 2)]

/-! # Theorems

## Generic facts about the `re.sub` scanner -/

/-- Shrink property of a pattern matcher: every match consumes at least one
character. -/
def PasoEncoge (paso : List Char → Option (List Char)) : Prop :=
  ∀ l rest, paso l = some rest → rest.length < l.length

theorem length_dropWhile_le (p : Char → Bool) (l : List Char) :
    (l.dropWhile p).length ≤ l.length :=
  (List.IsSuffix.sublist (List.dropWhile_suffix p)).length_le

theorem reSubF_nil (paso : List Char → Option (List Char)) (f : Nat) :
    reSubF paso f [] = [] := by
  cases f <;> rfl

theorem reSubF_irrel (paso : List Char → Option (List Char)) (hp : PasoEncoge paso) :
    ∀ f₁ f₂ l, l.length ≤ f₁ → l.length ≤ f₂ → reSubF paso f₁ l = reSubF paso f₂ l := by
  intro f₁
  induction f₁ with
  | zero =>
    intro f₂ l h₁ _
    have hl : l = [] := by cases l with
      | nil => rfl
      | cons c cs => simp at h₁
    subst hl
    rw [reSubF_nil, reSubF_nil]
  | succ f ih =>
    intro f₂ l h₁ h₂
    cases l with
    | nil => rw [reSubF_nil, reSubF_nil]
    | cons c cs =>
      cases f₂ with
      | zero => simp at h₂
      | succ g =>
        simp only [reSubF]
        cases hps : paso (c :: cs) with
        | some rest =>
          have hlen := hp _ _ hps
          simp only [List.length_cons] at hlen h₁ h₂
          have := ih g rest (by omega) (by omega)
          simp [this]
        | none =>
          simp only [List.length_cons] at h₁ h₂
          have := ih g cs (by omega) (by omega)
          simp [this]

theorem reSub_nil (paso : List Char → Option (List Char)) : reSub paso [] = [] := rfl

theorem reSub_cons (paso : List Char → Option (List Char)) (hp : PasoEncoge paso)
    (c : Char) (cs : List Char) :
    reSub paso (c :: cs) =
      match paso (c :: cs) with
      | some rest => ' ' :: reSub paso rest
      | none => c :: reSub paso cs := by
  show reSubF paso (c :: cs).length (c :: cs) = _
  cases hps : paso (c :: cs) with
  | some rest =>
    have hlen := hp _ _ hps
    simp only [List.length_cons] at hlen
    simp only [List.length_cons, reSubF, hps]
    exact congrArg _ (reSubF_irrel paso hp _ _ rest (by omega) le_rfl)
  | none =>
    simp only [List.length_cons, reSubF, hps]
    exact congrArg _ (reSubF_irrel paso hp _ _ cs (by omega) le_rfl)

theorem matchUrlAt_encoge : PasoEncoge matchUrlAt := by
  intro l rest h
  match l with
  | [] => simp [matchUrlAt] at h
  | [c1] => simp [matchUrlAt] at h
  | [c1, c2] => simp [matchUrlAt] at h
  | [c1, c2, c3] => simp [matchUrlAt] at h
  | [c1, c2, c3, c4] => simp [matchUrlAt] at h
  | c1 :: c2 :: c3 :: c4 :: c5 :: r =>
    simp only [matchUrlAt] at h
    split at h
    · cases h
      have := length_dropWhile_le (fun x => !pySpace x) (c5 :: r)
      simp only [List.length_cons] at this ⊢
      omega
    · split at h
      · cases h
        have := length_dropWhile_le (fun x => !pySpace x) (c5 :: r)
        simp only [List.length_cons] at this ⊢
        omega
      · cases h

theorem matchAtHashAt_encoge : PasoEncoge matchAtHashAt := by
  intro l rest h
  match l with
  | [] => simp [matchAtHashAt] at h
  | c :: cs =>
    simp only [matchAtHashAt] at h
    split at h
    · cases h
      have := length_dropWhile_le pyWordChar cs
      simp only [List.length_cons]
      omega
    · cases h

theorem matchDigitsAt_encoge : PasoEncoge matchDigitsAt := by
  intro l rest h
  match l with
  | [] => simp [matchDigitsAt] at h
  | c :: cs =>
    simp only [matchDigitsAt] at h
    split at h
    · cases h
      have := length_dropWhile_le Char.isDigit cs
      simp only [List.length_cons]
      omega
    · cases h

theorem matchSpacesAt_encoge : PasoEncoge matchSpacesAt := by
  intro l rest h
  match l with
  | [] => simp [matchSpacesAt] at h
  | c :: cs =>
    simp only [matchSpacesAt] at h
    split at h
    · cases h
      have := length_dropWhile_le pySpace cs
      simp only [List.length_cons]
      omega
    · cases h

/-! ## `TieneUrl` and the segment-replacement simulation -/

theorem tieneUrl_nil : ¬TieneUrl [] := by
  rintro ⟨l₁, c, l₂, h, -⟩
  simp at h

theorem tieneUrl_cons {x : Char} {xs : List Char} :
    TieneUrl (x :: xs) ↔
      (∃ c l₂, x :: xs = 'h' :: 't' :: 't' :: 'p' :: c :: l₂ ∧ pySpace c = false) ∨
        TieneUrl xs := by
  constructor
  · rintro ⟨l₁, c, l₂, heq, hc⟩
    cases l₁ with
    | nil => exact Or.inl ⟨c, l₂, by simpa using heq, hc⟩
    | cons a l₁ =>
      simp only [List.cons_append, List.cons.injEq] at heq
      exact Or.inr ⟨l₁, c, l₂, heq.2, hc⟩
  · rintro (⟨c, l₂, heq, hc⟩ | ⟨l₁, c, l₂, heq, hc⟩)
    · exact ⟨[], c, l₂, by simpa using heq, hc⟩
    · exact ⟨x :: l₁, c, l₂, by simp [heq], hc⟩

theorem tieneUrl_prepend (l₀ : List Char) {l : List Char} (h : TieneUrl l) :
    TieneUrl (l₀ ++ l) := by
  rcases h with ⟨l₁, c, l₂, heq, hc⟩
  exact ⟨l₀ ++ l₁, c, l₂, by simp [heq], hc⟩

theorem reemp_cons_inv {l : List Char} {d : Char} {l' : List Char} (hd : d ≠ ' ')
    (h : Reemp l (d :: l')) : ∃ m, l = d :: m ∧ Reemp m l' := by
  cases h with
  | keep c hr => exact ⟨_, rfl, hr⟩
  | repl seg hne hr => exact absurd rfl hd

/-- A space-for-segment replacement can only destroy, never create, an
`http`-followed-by-non-space occurrence. -/
theorem tieneUrl_reemp {l l' : List Char} (hr : Reemp l l') : TieneUrl l' → TieneUrl l := by
  induction hr with
  | nil => exact id
  | keep c hr ih =>
    intro h
    rcases tieneUrl_cons.1 h with ⟨c₅, l₂, heq, hc⟩ | h
    · simp only [List.cons.injEq] at heq
      obtain ⟨rfl, heq⟩ := heq
      have hc₅ : c₅ ≠ ' ' := by
        rintro rfl
        exact absurd hc (by decide)
      subst heq
      obtain ⟨m₁, rfl, hr₁⟩ := reemp_cons_inv (by decide) hr
      obtain ⟨m₂, rfl, hr₂⟩ := reemp_cons_inv (by decide) hr₁
      obtain ⟨m₃, rfl, hr₃⟩ := reemp_cons_inv (by decide) hr₂
      obtain ⟨m₄, rfl, -⟩ := reemp_cons_inv hc₅ hr₃
      exact ⟨[], c₅, m₄, rfl, hc⟩
    · exact tieneUrl_cons.2 (Or.inr (ih h))
  | repl seg hne hr ih =>
    intro h
    rcases tieneUrl_cons.1 h with ⟨c₅, l₂, heq, hc⟩ | h
    · simp at heq
    · exact tieneUrl_prepend seg (ih h)

/-- Splitting property of a matcher: a match is a nonempty prefix of the
scanned list. -/
def PasoParte (paso : List Char → Option (List Char)) : Prop :=
  ∀ l rest, paso l = some rest → ∃ seg, seg ≠ [] ∧ l = seg ++ rest

theorem reemp_reSubF (paso : List Char → Option (List Char)) (hp : PasoEncoge paso)
    (hs : PasoParte paso) :
    ∀ n l, l.length ≤ n → Reemp l (reSub paso l) := by
  intro n
  induction n with
  | zero =>
    intro l hl
    have : l = [] := by cases l with
      | nil => rfl
      | cons c cs => simp at hl
    subst this
    exact Reemp.nil
  | succ n ih =>
    intro l hl
    cases l with
    | nil => exact Reemp.nil
    | cons c cs =>
      rw [reSub_cons paso hp]
      simp only [List.length_cons] at hl
      cases hps : paso (c :: cs) with
      | some rest =>
        obtain ⟨seg, hne, heq⟩ := hs _ _ hps
        have hlen := hp _ _ hps
        simp only [List.length_cons] at hlen
        rw [heq]
        exact Reemp.repl seg hne (ih rest (by omega))
      | none => exact Reemp.keep c (ih cs (by omega))

theorem reemp_reSub (paso : List Char → Option (List Char)) (hp : PasoEncoge paso)
    (hs : PasoParte paso) (l : List Char) : Reemp l (reSub paso l) :=
  reemp_reSubF paso hp hs l.length l le_rfl

theorem matchUrlAt_parte : PasoParte matchUrlAt := by
  intro l rest h
  match l with
  | [] => simp [matchUrlAt] at h
  | [c1] => simp [matchUrlAt] at h
  | [c1, c2] => simp [matchUrlAt] at h
  | [c1, c2, c3] => simp [matchUrlAt] at h
  | [c1, c2, c3, c4] => simp [matchUrlAt] at h
  | c1 :: c2 :: c3 :: c4 :: c5 :: r =>
    simp only [matchUrlAt] at h
    split at h <;> [skip; split at h]
    · cases h
      refine ⟨c1 :: c2 :: c3 :: c4 :: (c5 :: r).takeWhile (fun x => !pySpace x), by simp, ?_⟩
      simp [List.takeWhile_append_dropWhile]
    · cases h
      refine ⟨c1 :: c2 :: c3 :: c4 :: (c5 :: r).takeWhile (fun x => !pySpace x), by simp, ?_⟩
      simp [List.takeWhile_append_dropWhile]
    · cases h

theorem matchAtHashAt_parte : PasoParte matchAtHashAt := by
  intro l rest h
  match l with
  | [] => simp [matchAtHashAt] at h
  | c :: cs =>
    simp only [matchAtHashAt] at h
    split at h
    · cases h
      exact ⟨c :: cs.takeWhile pyWordChar, by simp,
        by simp [List.takeWhile_append_dropWhile]⟩
    · cases h

theorem matchDigitsAt_parte : PasoParte matchDigitsAt := by
  intro l rest h
  match l with
  | [] => simp [matchDigitsAt] at h
  | c :: cs =>
    simp only [matchDigitsAt] at h
    split at h
    · cases h
      exact ⟨c :: cs.takeWhile Char.isDigit, by simp,
        by simp [List.takeWhile_append_dropWhile]⟩
    · cases h

theorem matchSpacesAt_parte : PasoParte matchSpacesAt := by
  intro l rest h
  match l with
  | [] => simp [matchSpacesAt] at h
  | c :: cs =>
    simp only [matchSpacesAt] at h
    split at h
    · cases h
      exact ⟨c :: cs.takeWhile pySpace, by simp,
        by simp [List.takeWhile_append_dropWhile]⟩
    · cases h

/-! ## No URL shape survives the pipeline -/

theorem reSub_cons_inv (paso : List Char → Option (List Char)) (hp : PasoEncoge paso)
    {l : List Char} {d : Char} {X : List Char} (hd : d ≠ ' ')
    (h : reSub paso l = d :: X) :
    ∃ l', l = d :: l' ∧ paso l = none ∧ X = reSub paso l' := by
  cases l with
  | nil => simp [reSub_nil] at h
  | cons c cs =>
    rw [reSub_cons paso hp] at h
    cases hps : paso (c :: cs) with
    | some rest =>
      rw [hps] at h
      simp only [List.cons.injEq] at h
      exact absurd h.1.symm hd
    | none =>
      rw [hps] at h
      simp only [List.cons.injEq] at h
      obtain ⟨rfl, hX⟩ := h
      exact ⟨cs, rfl, rfl, hX.symm⟩


theorem subUrls_sin_url : ∀ n l, l.length ≤ n → ¬TieneUrl (reSub matchUrlAt l) := by
  intro n
  induction n with
  | zero =>
    intro l hl
    have : l = [] := by cases l with
      | nil => rfl
      | cons c cs => simp at hl
    subst this
    rw [reSub_nil]
    exact tieneUrl_nil
  | succ n ih =>
    intro l hl
    cases l with
    | nil => rw [reSub_nil]; exact tieneUrl_nil
    | cons c cs =>
      simp only [List.length_cons] at hl
      rw [reSub_cons matchUrlAt matchUrlAt_encoge]
      cases hps : matchUrlAt (c :: cs) with
      | some rest =>
        intro h
        have hlen := matchUrlAt_encoge _ _ hps
        simp only [List.length_cons] at hlen
        rcases tieneUrl_cons.1 h with ⟨c₅, l₂, heq, -⟩ | h
        · simp at heq
        · exact ih rest (by omega) h
      | none =>
        intro h
        rcases tieneUrl_cons.1 h with ⟨c₅, l₂, heq, hc⟩ | h
        · simp only [List.cons.injEq] at heq
          obtain ⟨rfl, heq⟩ := heq
          have hc₅ : c₅ ≠ ' ' := by
            rintro rfl
            exact absurd hc (by decide)
          obtain ⟨m₁, rfl, -, hX₁⟩ :=
            reSub_cons_inv matchUrlAt matchUrlAt_encoge (by decide) heq
          obtain ⟨m₂, rfl, -, hX₂⟩ :=
            reSub_cons_inv matchUrlAt matchUrlAt_encoge (by decide) hX₁.symm
          obtain ⟨m₃, rfl, -, hX₃⟩ :=
            reSub_cons_inv matchUrlAt matchUrlAt_encoge (by decide) hX₂.symm
          obtain ⟨m₄, rfl, -, -⟩ :=
            reSub_cons_inv matchUrlAt matchUrlAt_encoge hc₅ hX₃.symm
          rw [show matchUrlAt ('h' :: 't' :: 't' :: 'p' :: c₅ :: m₄) =
            some ((c₅ :: m₄).dropWhile (fun x => !pySpace x)) from by
              simp [matchUrlAt, hc]] at hps
          cases hps
        · exact ih cs (by omega) h

theorem sin_url_subUrls (l : List Char) : ¬TieneUrl (subUrls l) :=
  subUrls_sin_url l.length l le_rfl

theorem reemp_subNonAlpha (l : List Char) : Reemp l (subNonAlpha l) := by
  induction l with
  | nil => exact Reemp.nil
  | cons c cs ih =>
    simp only [subNonAlpha, List.map_cons]
    by_cases h : spanishLetter c || pySpace c
    · rw [if_pos h]; exact Reemp.keep c ih
    · rw [if_neg h]
      exact Reemp.repl [c] (by simp) ih

theorem unidecodeChar_of_space {x : Char} (h : pySpace x = true) : unidecodeChar x = x := by
  simp only [pySpace, Bool.or_eq_true, decide_eq_true_eq] at h
  rcases h with ((((rfl | rfl) | rfl) | rfl) | rfl) | rfl <;> rfl

theorem unidecodeChar_fib (x : Char) :
    unidecodeChar x = x ∨ unidecodeChar x = 'a' ∨ unidecodeChar x = 'e' ∨
      unidecodeChar x = 'i' ∨ unidecodeChar x = 'o' ∨ unidecodeChar x = 'u' ∨
      unidecodeChar x = 'n' := by
  unfold unidecodeChar
  split
  · exact Or.inr (Or.inl rfl)
  split
  · exact Or.inr (Or.inr (Or.inl rfl))
  split
  · exact Or.inr (Or.inr (Or.inr (Or.inl rfl)))
  split
  · exact Or.inr (Or.inr (Or.inr (Or.inr (Or.inl rfl))))
  split
  · exact Or.inr (Or.inr (Or.inr (Or.inr (Or.inr (Or.inl rfl)))))
  split
  · exact Or.inr (Or.inr (Or.inr (Or.inr (Or.inr (Or.inr rfl)))))
  split
  · exact Or.inr (Or.inr (Or.inr (Or.inr (Or.inr (Or.inl rfl)))))
  · exact Or.inl rfl

theorem unidecodeChar_preimage {x y : Char}
    (hy : ¬(y = 'a' ∨ y = 'e' ∨ y = 'i' ∨ y = 'o' ∨ y = 'u' ∨ y = 'n'))
    (h : unidecodeChar x = y) : x = y := by
  rcases unidecodeChar_fib x with hx | hx | hx | hx | hx | hx | hx
  · rw [← hx, h]
  all_goals rw [hx] at h; exact absurd h.symm (by tauto)

theorem pySpace_unidecodeChar {x : Char} (h : pySpace (unidecodeChar x) = false) :
    pySpace x = false := by
  by_contra hx
  rw [Bool.not_eq_false] at hx
  rw [unidecodeChar_of_space hx] at h
  rw [hx] at h
  cases h

theorem tieneUrl_unidecode {l : List Char} (h : TieneUrl (unidecodeList l)) : TieneUrl l := by
  induction l with
  | nil => exact absurd h tieneUrl_nil
  | cons a l ih =>
    rcases tieneUrl_cons.1 h with ⟨c₅, l₂, heq, hc⟩ | h
    · match l with
      | [] => simp [unidecodeList] at heq
      | [b1] => simp [unidecodeList] at heq
      | [b1, b2] => simp [unidecodeList] at heq
      | [b1, b2, b3] => simp [unidecodeList] at heq
      | b1 :: b2 :: b3 :: b4 :: l₄ =>
        simp only [unidecodeList, List.map_cons, List.cons.injEq] at heq
        obtain ⟨ha, h1, h2, h3, h4, -⟩ := heq
        have ha' : a = 'h' := unidecodeChar_preimage (by decide) ha
        have h1' : b1 = 't' := unidecodeChar_preimage (by decide) h1
        have h2' : b2 = 't' := unidecodeChar_preimage (by decide) h2
        have h3' : b3 = 'p' := unidecodeChar_preimage (by decide) h3
        have h4' : pySpace b4 = false := pySpace_unidecodeChar (h4 ▸ hc)
        subst ha' h1' h2' h3'
        exact ⟨[], b4, l₄, rfl, h4'⟩
    · exact tieneUrl_cons.2 (Or.inr (ih h))

theorem stripSpaces_infijo (l : List Char) : stripSpaces l <:+: l := by
  obtain ⟨t, ht⟩ := List.rdropWhile_prefix pySpace (l.dropWhile pySpace)
  obtain ⟨s, hs⟩ := List.dropWhile_suffix (l := l) pySpace
  refine ⟨s, t, ?_⟩
  rw [stripSpaces, List.append_assoc, ht, hs]

theorem tieneUrl_infijo {l' l : List Char} (hinf : l' <:+: l) (h : TieneUrl l') :
    TieneUrl l := by
  obtain ⟨s, t, rfl⟩ := hinf
  rcases h with ⟨l₁, c, l₂, rfl, hc⟩
  exact ⟨s ++ l₁, c, l₂ ++ t, by simp, hc⟩

/-- The output of `limpiar_texto` never contains `http` followed by a
non-space: the URL pass removes every such occurrence and no later pass can
create one. -/
theorem sin_url_limpiar (s : List Char) : ¬TieneUrl (limpiar_texto s) := by
  intro h
  unfold limpiar_texto at h
  have h1 := tieneUrl_infijo (stripSpaces_infijo _) h
  have h2 := tieneUrl_reemp
    (reemp_reSub matchSpacesAt matchSpacesAt_encoge matchSpacesAt_parte _) h1
  have h3 := tieneUrl_unidecode h2
  have h4 := tieneUrl_reemp (reemp_subNonAlpha _) h3
  have h5 := tieneUrl_reemp
    (reemp_reSub matchDigitsAt matchDigitsAt_encoge matchDigitsAt_parte _) h4
  have h6 := tieneUrl_reemp
    (reemp_reSub matchAtHashAt matchAtHashAt_encoge matchAtHashAt_parte _) h5
  exact sin_url_subUrls _ h6

/-! ## The characters, spacing and edges of `limpiar_texto` outputs -/

theorem mem_subNonAlpha {x : Char} {l : List Char} (h : x ∈ subNonAlpha l) :
    spanishLetter x = true ∨ pySpace x = true := by
  simp only [subNonAlpha, List.mem_map] at h
  obtain ⟨c, -, hc⟩ := h
  by_cases hsp : spanishLetter c || pySpace c
  · rw [if_pos hsp] at hc
    subst hc
    simpa [Bool.or_eq_true] using hsp
  · rw [if_neg hsp] at hc
    subst hc
    right
    decide

theorem isAsciiLower_unidecodeChar {c : Char} (h : spanishLetter c = true) :
    isAsciiLower (unidecodeChar c) = true := by
  simp only [spanishLetter, Bool.or_eq_true, decide_eq_true_eq] at h
  rcases h with ((((((h | rfl) | rfl) | rfl) | rfl) | rfl) | rfl) | rfl
  · rcases unidecodeChar_fib c with hx | hx | hx | hx | hx | hx | hx <;> rw [hx] <;>
      first | exact h | decide
  all_goals decide

theorem mem_unidecodeList {x : Char} {l : List Char} (h : x ∈ unidecodeList l)
    (hl : ∀ c ∈ l, spanishLetter c = true ∨ pySpace c = true) :
    isAsciiLower x = true ∨ pySpace x = true := by
  simp only [unidecodeList, List.mem_map] at h
  obtain ⟨c, hc, rfl⟩ := h
  rcases hl c hc with hs | hs
  · exact Or.inl (isAsciiLower_unidecodeChar hs)
  · right
    rw [unidecodeChar_of_space hs]
    exact hs

theorem matchSpacesAt_none {c : Char} {cs : List Char} (hc : pySpace c = false) :
    matchSpacesAt (c :: cs) = none := by
  simp [matchSpacesAt, hc]

theorem matchSpacesAt_some {c : Char} {cs : List Char} (hc : pySpace c = true) :
    matchSpacesAt (c :: cs) = some (cs.dropWhile pySpace) := by
  simp [matchSpacesAt, hc]

theorem mem_collapse :
    ∀ n l, l.length ≤ n → ∀ x ∈ collapseSpaces l, x = ' ' ∨ (x ∈ l ∧ pySpace x = false) := by
  intro n
  induction n with
  | zero =>
    intro l hl x hx
    cases l with
    | nil => simp [collapseSpaces, reSub_nil] at hx
    | cons c cs => simp at hl
  | succ n ih =>
    intro l hl x hx
    cases l with
    | nil => simp [collapseSpaces, reSub_nil] at hx
    | cons c cs =>
      simp only [List.length_cons] at hl
      rw [show collapseSpaces (c :: cs) = reSub matchSpacesAt (c :: cs) from rfl,
        reSub_cons _ matchSpacesAt_encoge] at hx
      by_cases hc : pySpace c
      · rw [matchSpacesAt_some hc] at hx
        rcases List.mem_cons.1 hx with rfl | hx
        · exact Or.inl rfl
        · have hlen := length_dropWhile_le pySpace cs
          rcases ih (cs.dropWhile pySpace) (by omega) x hx with h | ⟨hmem, hsp⟩
          · exact Or.inl h
          · exact Or.inr ⟨List.mem_cons_of_mem c
              ((List.dropWhile_suffix pySpace).sublist.subset hmem), hsp⟩
      · rw [matchSpacesAt_none (by simpa using hc)] at hx
        rcases List.mem_cons.1 hx with rfl | hx
        · exact Or.inr ⟨List.mem_cons_self _ _, by simpa using hc⟩
        · rcases ih cs (by omega) x hx with h | ⟨hmem, hsp⟩
          · exact Or.inl h
          · exact Or.inr ⟨List.mem_cons_of_mem c hmem, hsp⟩

theorem collapse_cons_space {c : Char} {cs : List Char} (hc : pySpace c = true) :
    collapseSpaces (c :: cs) = ' ' :: collapseSpaces (cs.dropWhile pySpace) := by
  rw [show collapseSpaces (c :: cs) = reSub matchSpacesAt (c :: cs) from rfl,
    reSub_cons _ matchSpacesAt_encoge, matchSpacesAt_some hc]
  rfl

theorem collapse_cons_nonspace {c : Char} {cs : List Char} (hc : pySpace c = false) :
    collapseSpaces (c :: cs) = c :: collapseSpaces cs := by
  rw [show collapseSpaces (c :: cs) = reSub matchSpacesAt (c :: cs) from rfl,
    reSub_cons _ matchSpacesAt_encoge, matchSpacesAt_none hc]
  rfl

theorem collapse_head {m : List Char} {d : Char} (hm : m.head? = some d)
    (hd : pySpace d = false) : (collapseSpaces m).head? = some d := by
  cases m with
  | nil => simp at hm
  | cons c cs =>
    simp only [List.head?_cons, Option.some.injEq] at hm
    rw [← hm] at hd
    rw [← hm, collapse_cons_nonspace hd]
    rfl

theorem collapse_eq_cons_nonspace {m : List Char} {b : Char} {X : List Char}
    (hm : ∀ d, m.head? = some d → pySpace d = false)
    (h : collapseSpaces m = b :: X) : pySpace b = false := by
  cases m with
  | nil => simp [collapseSpaces, reSub_nil] at h
  | cons d m' =>
    have hd := hm d rfl
    have := collapse_head (m := d :: m') rfl hd
    rw [h] at this
    simp only [List.head?_cons, Option.some.injEq] at this
    subst this
    exact hd

theorem sinDoble_tail {a : Char} {l : List Char} (h : SinDobleEspacio (a :: l)) :
    SinDobleEspacio l := by
  cases l with
  | nil => trivial
  | cons b m => exact h.2

theorem head?_dropWhile_pySpace (l : List Char) :
    ∀ d, (l.dropWhile pySpace).head? = some d → pySpace d = false := by
  intro d hd
  have := List.head?_dropWhile_not pySpace l
  rw [hd] at this
  exact this

theorem sinDoble_collapse : ∀ n l, l.length ≤ n → SinDobleEspacio (collapseSpaces l) := by
  intro n
  induction n with
  | zero =>
    intro l hl
    cases l with
    | nil => simp [collapseSpaces, reSub_nil, SinDobleEspacio]
    | cons c cs => simp at hl
  | succ n ih =>
    intro l hl
    cases l with
    | nil => simp [collapseSpaces, reSub_nil, SinDobleEspacio]
    | cons c cs =>
      simp only [List.length_cons] at hl
      by_cases hc : pySpace c
      · rw [collapse_cons_space hc]
        have hlen := length_dropWhile_le pySpace cs
        have hX := ih (cs.dropWhile pySpace) (by omega)
        cases hXc : collapseSpaces (cs.dropWhile pySpace) with
        | nil => trivial
        | cons b X' =>
          rw [hXc] at hX
          refine ⟨?_, hX⟩
          rintro ⟨-, hb⟩
          have := collapse_eq_cons_nonspace (head?_dropWhile_pySpace cs) hXc
          rw [hb] at this
          cases this
      · rw [collapse_cons_nonspace (by simpa using hc)]
        have hX := ih cs (by omega)
        cases hXc : collapseSpaces cs with
        | nil => trivial
        | cons b X' =>
          rw [hXc] at hX
          refine ⟨?_, hX⟩
          rintro ⟨h1, -⟩
          exact hc (by simpa using h1)

theorem sinDoble_append_right :
    ∀ {l₁ l₂ : List Char}, SinDobleEspacio (l₁ ++ l₂) → SinDobleEspacio l₂ := by
  intro l₁
  induction l₁ with
  | nil => exact fun h => h
  | cons a l₁ ih => exact fun h => ih (sinDoble_tail h)

theorem sinDoble_append_left :
    ∀ {l₁ l₂ : List Char}, SinDobleEspacio (l₁ ++ l₂) → SinDobleEspacio l₁ := by
  intro l₁
  induction l₁ with
  | nil => exact fun _ => trivial
  | cons a l₁ ih =>
    intro l₂ h
    cases l₁ with
    | nil => trivial
    | cons b m =>
      simp only [List.cons_append] at h
      exact ⟨h.1, ih h.2⟩

theorem sinDoble_infix {l' l : List Char} (hinf : l' <:+: l) (h : SinDobleEspacio l) :
    SinDobleEspacio l' := by
  obtain ⟨s, t, rfl⟩ := hinf
  exact sinDoble_append_right (sinDoble_append_left h)

theorem head?_of_prefix {l₁ l₂ : List Char} {c : Char} (h : l₁ <+: l₂)
    (hc : l₁.head? = some c) : l₂.head? = some c := by
  obtain ⟨t, rfl⟩ := h
  cases l₁ with
  | nil => simp at hc
  | cons a m =>
    simp only [List.head?_cons, Option.some.injEq] at hc
    subst hc
    rfl

theorem strip_head {l : List Char} {c : Char} (hc : (stripSpaces l).head? = some c) :
    pySpace c = false := by
  have h2 := head?_of_prefix (List.rdropWhile_prefix pySpace _) hc
  exact head?_dropWhile_pySpace l c h2

theorem strip_getLast {l : List Char} {c : Char} (hc : (stripSpaces l).getLast? = some c) :
    pySpace c = false := by
  unfold stripSpaces at hc
  have hne : (l.dropWhile pySpace).rdropWhile pySpace ≠ [] := by
    intro h
    rw [h] at hc
    cases hc
  have hlast := List.rdropWhile_last_not (p := pySpace) (l := l.dropWhile pySpace) hne
  rw [List.getLast?_eq_getLast _ hne] at hc
  simp only [Option.some.injEq] at hc
  subst hc
  simpa using hlast

/-- Every `limpiar_texto` output satisfies the cleanliness invariant. -/
theorem limpiar_es_limpio (s : List Char) : EsTextoLimpio (limpiar_texto s) := by
  refine ⟨?_, ?_, ?_, ?_, sin_url_limpiar s⟩
  · intro x hx
    rw [limpiar_texto] at hx
    have hx1 := (stripSpaces_infijo _).sublist.subset hx
    rcases mem_collapse _ _ le_rfl x hx1 with rfl | ⟨hmem, hsp⟩
    · exact Or.inr rfl
    · left
      rcases mem_unidecodeList hmem (fun c hc => mem_subNonAlpha hc) with h | h
      · exact h
      · rw [h] at hsp
        cases hsp
  · rw [limpiar_texto]
    exact sinDoble_infix (stripSpaces_infijo _) (sinDoble_collapse _ _ le_rfl)
  · intro c hc
    rw [limpiar_texto] at hc
    exact strip_head hc
  · intro c hc
    rw [limpiar_texto] at hc
    exact strip_getLast hc

/-! ## `limpiar_texto` fixes clean texts -/

theorem pySpace_false_of_lower {c : Char} (h : isAsciiLower c = true) :
    pySpace c = false := by
  by_contra hb
  rw [Bool.not_eq_false] at hb
  simp only [pySpace, Bool.or_eq_true, decide_eq_true_eq] at hb
  rcases hb with ((((rfl | rfl) | rfl) | rfl) | rfl) | rfl <;> exact absurd h (by decide)

theorem isAsciiUpper_false_of_lower {c : Char} (h : isAsciiLower c = true) :
    isAsciiUpper c = false := by
  simp only [isAsciiLower, Bool.and_eq_true, decide_eq_true_eq] at h
  by_contra hb
  rw [Bool.not_eq_false] at hb
  simp only [isAsciiUpper, Bool.and_eq_true, decide_eq_true_eq] at hb
  exact absurd (le_trans h.1 hb.2) (by decide)

theorem pyLower_id {c : Char} (h : isAsciiLower c = true ∨ c = ' ') : pyLower c = c := by
  rcases h with h | rfl
  · have h1 : c ≠ 'Á' := fun he => absurd (he ▸ h) (by decide)
    have h2 : c ≠ 'É' := fun he => absurd (he ▸ h) (by decide)
    have h3 : c ≠ 'Í' := fun he => absurd (he ▸ h) (by decide)
    have h4 : c ≠ 'Ó' := fun he => absurd (he ▸ h) (by decide)
    have h5 : c ≠ 'Ú' := fun he => absurd (he ▸ h) (by decide)
    have h6 : c ≠ 'Ñ' := fun he => absurd (he ▸ h) (by decide)
    have h7 : c ≠ 'Ü' := fun he => absurd (he ▸ h) (by decide)
    simp [pyLower, isAsciiUpper_false_of_lower h, h1, h2, h3, h4, h5, h6, h7]
  · rfl

theorem map_pyLower_id {l : List Char} (h : ∀ c ∈ l, isAsciiLower c = true ∨ c = ' ') :
    l.map pyLower = l := by
  induction l with
  | nil => rfl
  | cons c cs ih =>
    simp only [List.map_cons]
    rw [pyLower_id (h c (List.mem_cons_self c cs)),
      ih (fun d hd => h d (List.mem_cons_of_mem c hd))]

theorem reSub_id (paso : List Char → Option (List Char)) (hp : PasoEncoge paso) :
    ∀ n l, l.length ≤ n → (∀ l₂, l₂ <:+ l → paso l₂ = none) → reSub paso l = l := by
  intro n
  induction n with
  | zero =>
    intro l hl _
    cases l with
    | nil => exact reSub_nil paso
    | cons c cs => simp at hl
  | succ n ih =>
    intro l hl hnone
    cases l with
    | nil => exact reSub_nil paso
    | cons c cs =>
      simp only [List.length_cons] at hl
      rw [reSub_cons paso hp, hnone (c :: cs) (List.suffix_refl _)]
      rw [ih cs (by omega) (fun l₂ hs => hnone l₂ (hs.trans (List.suffix_cons c cs)))]

theorem matchUrlAt_none_of {l₂ : List Char}
    (hchars : ∀ c ∈ l₂, isAsciiLower c = true ∨ c = ' ')
    (hurl : ¬TieneUrl l₂) : matchUrlAt l₂ = none := by
  match l₂ with
  | [] => rfl
  | [c1] => rfl
  | [c1, c2] => rfl
  | [c1, c2, c3] => rfl
  | [c1, c2, c3, c4] => rfl
  | c1 :: c2 :: c3 :: c4 :: c5 :: r =>
    have h1 : ¬(c1 = 'h' && c2 = 't' && c3 = 't' && c4 = 'p' && !pySpace c5) = true := by
      intro hb
      simp only [Bool.and_eq_true, decide_eq_true_eq, Bool.not_eq_true'] at hb
      obtain ⟨⟨⟨⟨rfl, rfl⟩, rfl⟩, rfl⟩, hb5⟩ := hb
      exact hurl ⟨[], c5, r, rfl, hb5⟩
    have h2 : ¬(c1 = 'w' && c2 = 'w' && c3 = 'w' && c4 = '.' && !pySpace c5) = true := by
      intro hb
      simp only [Bool.and_eq_true, decide_eq_true_eq, Bool.not_eq_true'] at hb
      obtain ⟨⟨⟨⟨-, -⟩, -⟩, rfl⟩, -⟩ := hb
      rcases hchars '.' (by simp) with h | h <;> exact absurd h (by decide)
    rw [matchUrlAt]
    rw [if_neg h1, if_neg h2]

theorem matchAtHashAt_none_of {l₂ : List Char}
    (hchars : ∀ c ∈ l₂, isAsciiLower c = true ∨ c = ' ') : matchAtHashAt l₂ = none := by
  match l₂ with
  | [] => rfl
  | c :: cs =>
    have h1 : ¬((c = '@' || c = '#') && (cs.head?.elim false pyWordChar)) = true := by
      intro hb
      simp only [Bool.and_eq_true, Bool.or_eq_true, decide_eq_true_eq] at hb
      rcases hb.1 with rfl | rfl <;>
        rcases hchars _ (List.mem_cons_self _ _) with h | h <;> exact absurd h (by decide)
    rw [matchAtHashAt]
    rw [if_neg h1]

theorem matchDigitsAt_none_of {l₂ : List Char}
    (hchars : ∀ c ∈ l₂, isAsciiLower c = true ∨ c = ' ') : matchDigitsAt l₂ = none := by
  match l₂ with
  | [] => rfl
  | c :: cs =>
    have h1 : ¬(c.isDigit = true) := by
      intro hb
      rcases hchars c (List.mem_cons_self _ _) with h | rfl
      · simp only [Char.isDigit, Bool.and_eq_true, decide_eq_true_eq] at hb
        simp only [isAsciiLower, Bool.and_eq_true, decide_eq_true_eq] at h
        have hlo : (97 : Nat) ≤ c.val.toNat := h.1
        have hhi : c.val.toNat ≤ 57 := hb.2
        omega
      · exact absurd hb (by decide)
    rw [matchDigitsAt]
    rw [if_neg h1]

theorem subNonAlpha_id {l : List Char}
    (hchars : ∀ c ∈ l, isAsciiLower c = true ∨ c = ' ') : subNonAlpha l = l := by
  induction l with
  | nil => rfl
  | cons c cs ih =>
    simp only [subNonAlpha, List.map_cons]
    have hcond : (spanishLetter c || pySpace c) = true := by
      rcases hchars c (List.mem_cons_self _ _) with h | rfl
      · simp [spanishLetter, h]
      · decide
    rw [if_pos hcond]
    have := ih (fun d hd => hchars d (List.mem_cons_of_mem c hd))
    simp only [subNonAlpha] at this
    rw [this]

theorem unidecodeChar_id_of_lower {c : Char} (h : isAsciiLower c = true) :
    unidecodeChar c = c := by
  have h1 : c ≠ 'á' := fun he => absurd (he ▸ h) (by decide)
  have h2 : c ≠ 'é' := fun he => absurd (he ▸ h) (by decide)
  have h3 : c ≠ 'í' := fun he => absurd (he ▸ h) (by decide)
  have h4 : c ≠ 'ó' := fun he => absurd (he ▸ h) (by decide)
  have h5 : c ≠ 'ú' := fun he => absurd (he ▸ h) (by decide)
  have h6 : c ≠ 'ñ' := fun he => absurd (he ▸ h) (by decide)
  have h7 : c ≠ 'ü' := fun he => absurd (he ▸ h) (by decide)
  simp [unidecodeChar, h1, h2, h3, h4, h5, h6, h7]

theorem unidecodeList_id {l : List Char}
    (hchars : ∀ c ∈ l, isAsciiLower c = true ∨ c = ' ') : unidecodeList l = l := by
  induction l with
  | nil => rfl
  | cons c cs ih =>
    simp only [unidecodeList, List.map_cons]
    have hc : unidecodeChar c = c := by
      rcases hchars c (List.mem_cons_self _ _) with h | rfl
      · exact unidecodeChar_id_of_lower h
      · rfl
    rw [hc]
    have := ih (fun d hd => hchars d (List.mem_cons_of_mem c hd))
    simp only [unidecodeList] at this
    rw [this]

theorem collapse_id :
    ∀ n l, l.length ≤ n → (∀ c ∈ l, isAsciiLower c = true ∨ c = ' ') →
      SinDobleEspacio l → collapseSpaces l = l := by
  intro n
  induction n with
  | zero =>
    intro l hl _ _
    cases l with
    | nil => rfl
    | cons c cs => simp at hl
  | succ n ih =>
    intro l hl hchars hdoble
    cases l with
    | nil => rfl
    | cons c cs =>
      simp only [List.length_cons] at hl
      by_cases hc : pySpace c
      · have hc' : c = ' ' := by
          rcases hchars c (List.mem_cons_self _ _) with h | rfl
          · rw [pySpace_false_of_lower h] at hc
            cases hc
          · rfl
        rw [collapse_cons_space hc]
        cases cs with
        | nil => rw [hc']; rfl
        | cons b cs' =>
          have hb : pySpace b = false := by
            by_contra hbb
            rw [Bool.not_eq_false] at hbb
            exact hdoble.1 ⟨hc, hbb⟩
          rw [List.dropWhile_cons_of_neg (by simp [hb])]
          rw [ih (b :: cs') (by simpa using hl)
            (fun d hd => hchars d (List.mem_cons_of_mem c hd)) hdoble.2]
          rw [hc']
      · rw [collapse_cons_nonspace (by simpa using hc)]
        rw [ih cs (by omega) (fun d hd => hchars d (List.mem_cons_of_mem c hd))
          (sinDoble_tail hdoble)]

theorem stripSpaces_id {l : List Char}
    (hhead : ∀ c, l.head? = some c → pySpace c = false)
    (hlast : ∀ c, l.getLast? = some c → pySpace c = false) : stripSpaces l = l := by
  have h1 : l.dropWhile pySpace = l := by
    cases l with
    | nil => rfl
    | cons c cs => exact List.dropWhile_cons_of_neg (by simp [hhead c rfl])
  rw [stripSpaces, h1]
  rw [List.rdropWhile_eq_self_iff]
  intro hl
  rw [List.getLast?_eq_getLast l hl] at hlast
  simpa using hlast (l.getLast hl) rfl

/-- A clean text is a fixed point of `limpiar_texto`. -/
theorem limpiar_de_limpio {t : List Char} (h : EsTextoLimpio t) : limpiar_texto t = t := by
  obtain ⟨hchars, hdoble, hhead, hlast, hurl⟩ := h
  rw [limpiar_texto]
  rw [map_pyLower_id hchars]
  rw [show subUrls t = reSub matchUrlAt t from rfl,
    reSub_id matchUrlAt matchUrlAt_encoge t.length t le_rfl
      (fun l₂ hs => matchUrlAt_none_of
        (fun c hc => hchars c (hs.sublist.subset hc))
        (fun hu => hurl (tieneUrl_infijo hs.isInfix hu)))]
  rw [show subAtHash t = reSub matchAtHashAt t from rfl,
    reSub_id matchAtHashAt matchAtHashAt_encoge t.length t le_rfl
      (fun l₂ hs => matchAtHashAt_none_of (fun c hc => hchars c (hs.sublist.subset hc)))]
  rw [show subDigits t = reSub matchDigitsAt t from rfl,
    reSub_id matchDigitsAt matchDigitsAt_encoge t.length t le_rfl
      (fun l₂ hs => matchDigitsAt_none_of (fun c hc => hchars c (hs.sublist.subset hc)))]
  rw [subNonAlpha_id hchars]
  rw [unidecodeList_id hchars]
  rw [collapse_id t.length t le_rfl hchars hdoble]
  exact stripSpaces_id hhead hlast

/-- C6: `limpiar_texto` is idempotent. -/
theorem limpiar_texto_idempotente (x : List Char) :
    limpiar_texto (limpiar_texto x) = limpiar_texto x :=
  limpiar_de_limpio (limpiar_es_limpio x)

/-! ## The `frase_exacta` scan counts the word-boundary occurrences -/

theorem mem_ocurrencias {texto term : List Char} {p : Nat} :
    p ∈ ocurrencias texto term ↔ p < texto.length + 1 ∧ matchEn texto term p = true := by
  simp [ocurrencias, Finset.mem_filter, Finset.mem_range]

theorem scanFindallF_spec (texto term : List Char) (hne : term ≠ [])
    (hnov : ∀ p ∈ ocurrencias texto term, ∀ q ∈ ocurrencias texto term,
      p < q → p + term.length ≤ q) :
    ∀ fuel p, texto.length + 1 - p ≤ fuel →
      (∀ j ∈ ocurrencias texto term, j < p → j + term.length ≤ p) →
      scanFindallF texto term p fuel =
        ((ocurrencias texto term).filter (fun j => p ≤ j)).card := by
  have hlen : 1 ≤ term.length := by
    cases term with
    | nil => exact absurd rfl hne
    | cons a l => simp
  intro fuel
  induction fuel with
  | zero =>
    intro p hf _
    rw [show scanFindallF texto term p 0 = 0 from rfl]
    symm
    rw [Finset.card_eq_zero, Finset.filter_eq_empty_iff]
    intro j hj
    have hj1 := (mem_ocurrencias.1 hj).1
    omega
  | succ fuel ih =>
    intro p hf hinv
    by_cases hstop : texto.length < p
    · rw [show scanFindallF texto term p (fuel + 1) = if texto.length < p then 0 else _ from rfl,
        if_pos hstop]
      symm
      rw [Finset.card_eq_zero, Finset.filter_eq_empty_iff]
      intro j hj
      have hj1 := (mem_ocurrencias.1 hj).1
      omega
    · push_neg at hstop
      by_cases hm : matchEn texto term p = true
      · have hpS : p ∈ ocurrencias texto term := mem_ocurrencias.2 ⟨by omega, hm⟩
        have heq : scanFindallF texto term p (fuel + 1) =
            1 + scanFindallF texto term (p + term.length) fuel := by
          simp only [scanFindallF]
          rw [if_neg (by omega), if_pos hm]
        rw [heq]
        have hset : (ocurrencias texto term).filter (fun j => p ≤ j) =
            insert p ((ocurrencias texto term).filter (fun j => p + term.length ≤ j)) := by
          ext j
          simp only [Finset.mem_filter, Finset.mem_insert, decide_eq_true_eq]
          constructor
          · rintro ⟨hjS, hpj⟩
            rcases Nat.eq_or_lt_of_le hpj with rfl | hlt
            · exact Or.inl rfl
            · exact Or.inr ⟨hjS, hnov p hpS j hjS hlt⟩
          · rintro (rfl | ⟨hjS, hj⟩)
            · exact ⟨hpS, le_rfl⟩
            · exact ⟨hjS, by omega⟩
        have hIH := ih (p + term.length) (by omega) (by
          intro j hjS hj
          rcases Nat.lt_or_ge j p with hjp | hjp
          · have := hinv j hjS hjp
            omega
          · rcases Nat.eq_or_lt_of_le hjp with rfl | hlt
            · omega
            · have := hnov p hpS j hjS hlt
              omega)
        rw [hIH, hset, Finset.card_insert_of_not_mem (by
          simp only [Finset.mem_filter]
          rintro ⟨-, habs⟩
          omega)]
        omega
      · have hpS : p ∉ ocurrencias texto term := by
          intro hc
          exact hm (mem_ocurrencias.1 hc).2
        have heq : scanFindallF texto term p (fuel + 1) =
            scanFindallF texto term (p + 1) fuel := by
          simp only [scanFindallF]
          rw [if_neg (by omega), if_neg hm]
        rw [heq]
        have hset : (ocurrencias texto term).filter (fun j => p ≤ j) =
            (ocurrencias texto term).filter (fun j => p + 1 ≤ j) := by
          ext j
          simp only [Finset.mem_filter, decide_eq_true_eq]
          constructor
          · rintro ⟨hjS, hpj⟩
            refine ⟨hjS, ?_⟩
            rcases Nat.eq_or_lt_of_le hpj with rfl | hlt
            · exact absurd hjS hpS
            · omega
          · rintro ⟨hjS, hpj⟩
            exact ⟨hjS, by omega⟩
        have hIH := ih (p + 1) (by omega) (by
          intro j hjS hj
          rcases Nat.lt_or_ge j p with hjp | hjp
          · have := hinv j hjS hjp
            omega
          · have hjp2 : j = p := by omega
            subst hjp2
            exact absurd hjS hpS)
        rw [hIH, hset]

theorem reFindall_spec (texto term : List Char) (hne : term ≠ [])
    (hnov : ∀ p ∈ ocurrencias texto term, ∀ q ∈ ocurrencias texto term,
      p < q → p + term.length ≤ q) :
    reFindallCount texto term = (ocurrencias texto term).card := by
  rw [reFindallCount,
    scanFindallF_spec texto term hne hnov (texto.length + 1) 0 (by omega)
      (fun j _ hj => absurd hj (Nat.not_lt_zero j))]
  congr 1
  apply Finset.filter_true_of_mem
  intro j _
  simp

theorem pySplit_ne_nil_of_head {c : Char} {cs : List Char} (hc : pySpace c = false) :
    pySplit (c :: cs) ≠ [] := by
  show pySplitF (cs.length + 1) (c :: cs) ≠ []
  simp only [pySplitF]
  rw [if_neg (by simp [hc])]
  simp

theorem pySplit_limpiar_ne {t : List Char} (h : limpiar_texto t ≠ []) :
    pySplit (limpiar_texto t) ≠ [] := by
  obtain ⟨c, cs, hc⟩ := List.exists_cons_of_ne_nil h
  have hhead := (limpiar_es_limpio t).2.2.1 c (by rw [hc]; rfl)
  rw [hc]
  exact pySplit_ne_nil_of_head hhead

/-- C3: in `frase_exacta` mode the mention counter returns the number of
word-boundary-anchored occurrences of the full normalized term, provided
(as the claim states) the occurrences are non-overlapping; in particular a
text containing the term exactly `k` times as a whole-word sequence yields
`k`. -/
theorem frase_exacta_cuenta_ocurrencias (texto termino : List Char)
    (hne : limpiar_texto termino ≠ [])
    (hnov : ∀ p ∈ ocurrencias texto (limpiar_texto termino),
      ∀ q ∈ ocurrencias texto (limpiar_texto termino),
        p < q → p + (limpiar_texto termino).length ≤ q) :
    contar_menciones_termino texto termino "frase_exacta" =
      (ocurrencias texto (limpiar_texto termino)).card := by
  unfold contar_menciones_termino
  rw [if_neg hne, if_neg (pySplit_limpiar_ne hne), if_pos rfl]
  exact reFindall_spec texto (limpiar_texto termino) hne hnov

/-! ## `todas_las_palabras` is the minimum of the per-word counts -/

theorem foldl_min_le_init : ∀ (xs : List Nat) (a : Nat), xs.foldl Nat.min a ≤ a := by
  intro xs
  induction xs with
  | nil => exact fun a => le_rfl
  | cons b xs ih =>
    intro a
    exact le_trans (ih (Nat.min a b)) (Nat.min_le_left a b)

theorem foldl_min_le_mem : ∀ (xs : List Nat) (a x : Nat), x ∈ xs → xs.foldl Nat.min a ≤ x := by
  intro xs
  induction xs with
  | nil => intro a x hx; simp at hx
  | cons b xs ih =>
    intro a x hx
    rcases List.mem_cons.1 hx with rfl | hx
    · exact le_trans (foldl_min_le_init xs (Nat.min a x)) (Nat.min_le_right a x)
    · exact ih (Nat.min a b) x hx

theorem foldl_min_mem : ∀ (xs : List Nat) (a : Nat),
    xs.foldl Nat.min a = a ∨ xs.foldl Nat.min a ∈ xs := by
  intro xs
  induction xs with
  | nil => exact fun a => Or.inl rfl
  | cons b xs ih =>
    intro a
    rcases ih (Nat.min a b) with h | h
    · rw [List.foldl_cons, h]
      rcases Nat.le_total a b with hab | hab
      · exact Or.inl (Nat.min_eq_left hab)
      · right
        have hmin : Nat.min a b = b := Nat.min_eq_right hab
        rw [hmin]
        exact List.mem_cons_self b xs
    · exact Or.inr (List.mem_cons_of_mem b h)

/-- C4: in `todas_las_palabras` mode the count is the minimum over the
normalized term's words of that word's occurrence count in the text's word
list: it is bounded by every per-word count and attained by one of them. -/
theorem todas_las_palabras_es_minimo (texto termino : List Char)
    (hne : limpiar_texto termino ≠ []) :
    (∀ p ∈ pySplit (limpiar_texto termino),
      contar_menciones_termino texto termino "todas_las_palabras" ≤
        (pySplit texto).count p) ∧
    ∃ p ∈ pySplit (limpiar_texto termino),
      contar_menciones_termino texto termino "todas_las_palabras" =
        (pySplit texto).count p := by
  have hcount : contar_menciones_termino texto termino "todas_las_palabras" =
      listMin ((pySplit (limpiar_texto termino)).map
        (fun p => (pySplit texto).count p)) := by
    have hmodo1 : ("todas_las_palabras" : String) ≠ "frase_exacta" := by decide
    unfold contar_menciones_termino
    rw [if_neg hne, if_neg (pySplit_limpiar_ne hne), if_neg hmodo1, if_pos rfl]
  obtain ⟨w, rest, hw⟩ := List.exists_cons_of_ne_nil (pySplit_limpiar_ne hne)
  rw [hcount, hw]
  simp only [List.map_cons, listMin]
  constructor
  · intro p hp
    rcases List.mem_cons.1 hp with rfl | hp
    · exact foldl_min_le_init _ _
    · exact foldl_min_le_mem _ _ _ (List.mem_map_of_mem _ hp)
  · rcases foldl_min_mem (rest.map (fun p => (pySplit texto).count p))
      ((pySplit texto).count w) with h | h
    · exact ⟨w, List.mem_cons_self w rest, h⟩
    · obtain ⟨p, hp, hpe⟩ := List.mem_map.1 h
      exact ⟨p, List.mem_cons_of_mem w hp, hpe.symm⟩

/-! ## Group normalization (C8) -/

theorem stripSpaces_nil : stripSpaces [] = [] := rfl

/-- C8: group normalization maps `strip` over the entries, keeps the
non-empty results in their original order with duplicates intact, and
truncates to at most 5 terms; in particular a 6-term group loses exactly its
sixth term. -/
theorem normalizar_grupo_recorta (grupo : List (List Char)) :
    normalizar_grupo_terminos grupo =
      ((grupo.map stripSpaces).filter (fun t => !t.isEmpty)).take 5 ∧
    (normalizar_grupo_terminos grupo).length ≤ 5 ∧
    normalizar_grupo_terminos
        ["a".toList, "b".toList, "c".toList, "d".toList, "e".toList, "f".toList] =
      ["a".toList, "b".toList, "c".toList, "d".toList, "e".toList] := by
  have hmapfil : ∀ g : List (List Char),
      (g.filter (fun t => !t.isEmpty && !(stripSpaces t).isEmpty)).map stripSpaces =
        (g.map stripSpaces).filter (fun t => !t.isEmpty) := by
    intro g
    induction g with
    | nil => rfl
    | cons t g ih =>
      simp only [List.map_cons, List.filter_cons]
      by_cases h1 : t.isEmpty
      · have ht : t = [] := by simpa [List.isEmpty_iff] using h1
        subst ht
        rw [show stripSpaces [] = [] from rfl]
        simp [ih]
      · by_cases h2 : (stripSpaces t).isEmpty
        · simp only [h1, h2, Bool.not_true, Bool.not_false, Bool.and_false]
          simp [h2, ih]
        · simp only [h1, h2, Bool.not_true, Bool.not_false, Bool.and_true]
          simp [h2, List.map_cons, ih]
  refine ⟨?_, ?_, by decide⟩
  · rw [normalizar_grupo_terminos, hmapfil]
  · exact le_trans (List.length_take_le 5 _) le_rfl

/-! ## The per-page record (C1) -/

theorem any_beq_iff_mem_dictKeys {d : List (List Char × Nat)} {k : List Char} :
    d.any (fun kv => kv.1 == k) = true ↔ k ∈ dictKeys d := by
  simp [List.any_eq_true, beq_iff_eq, dictKeys, List.mem_map]

theorem dictKeys_dictInsert_of_mem {d : List (List Char × Nat)} {k : List Char} {v : Nat}
    (hk : d.any (fun kv => kv.1 == k) = true) :
    dictKeys (dictInsert d k v) = dictKeys d := by
  unfold dictInsert
  rw [if_pos hk]
  unfold dictKeys
  rw [List.map_map]
  apply List.map_congr_left
  intro kv _
  by_cases hpk : kv.1 = k
  · simp only [Function.comp_apply]
    rw [if_pos (by simpa using hpk)]
    exact hpk.symm
  · simp only [Function.comp_apply]
    rw [if_neg (by simpa using hpk)]

theorem dictKeys_dictInsert_of_new {d : List (List Char × Nat)} {k : List Char} {v : Nat}
    (hk : ¬d.any (fun kv => kv.1 == k) = true) :
    dictKeys (dictInsert d k v) = dictKeys d ++ [k] := by
  unfold dictInsert dictKeys
  rw [if_neg hk]
  simp

theorem mem_dictKeys_dictInsert {d : List (List Char × Nat)} {k t : List Char} {v : Nat} :
    t ∈ dictKeys (dictInsert d k v) ↔ t ∈ dictKeys d ∨ t = k := by
  by_cases hk : d.any (fun kv => kv.1 == k) = true
  · rw [dictKeys_dictInsert_of_mem hk]
    constructor
    · exact Or.inl
    · rintro (h | rfl)
      · exact h
      · exact any_beq_iff_mem_dictKeys.1 hk
  · rw [dictKeys_dictInsert_of_new hk]
    simp [List.mem_append]

theorem nodup_dictKeys_dictInsert {d : List (List Char × Nat)} {k : List Char} {v : Nat}
    (h : (dictKeys d).Nodup) : (dictKeys (dictInsert d k v)).Nodup := by
  by_cases hk : d.any (fun kv => kv.1 == k) = true
  · rw [dictKeys_dictInsert_of_mem hk]
    exact h
  · rw [dictKeys_dictInsert_of_new hk]
    rw [List.nodup_append]
    refine ⟨h, List.nodup_singleton k, ?_⟩
    intro a ha hk2
    simp only [List.mem_singleton] at hk2
    subst hk2
    exact hk (any_beq_iff_mem_dictKeys.2 ha)

theorem mem_dictKeys_fold {texto : List Char} {modo : String} :
    ∀ (g : List (List Char)) (d : List (List Char × Nat)) (t : List Char),
      t ∈ dictKeys (g.foldl
        (fun conteo termino =>
          dictInsert conteo termino (contar_menciones_termino texto termino modo)) d) ↔
        t ∈ dictKeys d ∨ t ∈ g := by
  intro g
  induction g with
  | nil => simp
  | cons a g ih =>
    intro d t
    rw [List.foldl_cons, ih]
    rw [mem_dictKeys_dictInsert]
    constructor
    · rintro ((h | rfl) | h)
      · exact Or.inl h
      · exact Or.inr (List.mem_cons_self _ _)
      · exact Or.inr (List.mem_cons_of_mem _ h)
    · rintro (h | h)
      · exact Or.inl (Or.inl h)
      · rcases List.mem_cons.1 h with rfl | h
        · exact Or.inl (Or.inr rfl)
        · exact Or.inr h

theorem nodup_dictKeys_fold {texto : List Char} {modo : String} :
    ∀ (g : List (List Char)) (d : List (List Char × Nat)),
      (dictKeys d).Nodup →
      (dictKeys (g.foldl
        (fun conteo termino =>
          dictInsert conteo termino (contar_menciones_termino texto termino modo)) d)).Nodup := by
  intro g
  induction g with
  | nil => exact fun d h => h
  | cons a g ih =>
    intro d h
    rw [List.foldl_cons]
    exact ih _ (nodup_dictKeys_dictInsert h)

theorem mem_dictKeys_contar {texto : List Char} {grupo : List (List Char)} {modo : String}
    {t : List Char} :
    t ∈ dictKeys (contar_menciones_en_texto texto grupo modo) ↔ t ∈ grupo := by
  rw [contar_menciones_en_texto, mem_dictKeys_fold]
  simp [dictKeys]

theorem nodup_dictKeys_contar {texto : List Char} {grupo : List (List Char)} {modo : String} :
    (dictKeys (contar_menciones_en_texto texto grupo modo)).Nodup := by
  rw [contar_menciones_en_texto]
  exact nodup_dictKeys_fold grupo [] (by simp [dictKeys])

/-- If `_procesar_resultado` keeps a page, its record stores the mention
mapping and the matching total. -/
theorem procesar_resultado_some {resultado : ResultadoBusqueda}
    {grupo : List (List Char)} {modo : String} {reg : Registro}
    (h : procesar_resultado resultado grupo modo = some reg) :
    reg.menciones_totales_pagina = (reg.menciones_por_termino.map (·.2)).sum ∧
    reg.menciones_por_termino =
      contar_menciones_en_texto (limpiar_texto resultado.texto) grupo modo ∧
    reg.menciones_totales_pagina ≠ 0 := by
  simp only [procesar_resultado] at h
  by_cases hmt : (List.map (fun x => x.2)
      (contar_menciones_en_texto (limpiar_texto resultado.texto) grupo modo)).sum = 0
  · rw [if_pos hmt] at h
    cases h
  · rw [if_neg hmt] at h
    injection h with h
    subst h
    exact ⟨rfl, rfl, hmt⟩

/-- C1: the recorded page total equals the sum of the values of its per-term
mention mapping, and that mapping carries exactly one entry per distinct term
of the normalized input group. -/
theorem total_es_suma_por_termino (resultado : ResultadoBusqueda)
    (grupo : List (List Char)) (modo : String) (reg : Registro)
    (h : procesar_resultado resultado grupo modo = some reg) :
    reg.menciones_totales_pagina = (reg.menciones_por_termino.map (·.2)).sum ∧
    (∀ t, t ∈ dictKeys reg.menciones_por_termino ↔ t ∈ grupo) ∧
    (dictKeys reg.menciones_por_termino).Nodup := by
  obtain ⟨h1, h2, -⟩ := procesar_resultado_some h
  refine ⟨h1, ?_, ?_⟩
  · intro t
    rw [h2]
    exact mem_dictKeys_contar
  · rw [h2]
    exact nodup_dictKeys_contar

/-! ## Storage: only positive counts are written (C10) -/

theorem obtener_o_crear_menciones (bd : BD) (t : List Char) :
    (obtener_o_crear_termino bd t).1.menciones = bd.menciones := by
  unfold obtener_o_crear_termino
  rcases hfind : bd.terminos.findIdx? (fun x => x == t) with _ | i <;> simp [hfind]

theorem foldl_inv {α β : Type} (step : β → α → β) (Q : β → Prop)
    (h : ∀ b a, Q b → Q (step b a)) : ∀ (l : List α) (b : β), Q b → Q (l.foldl step b) := by
  intro l
  induction l with
  | nil => exact fun b hb => hb
  | cons a l ih => exact fun b hb => ih (step b a) (h b a hb)

/-- C10: a mention row is created or updated only with a strictly positive
count; mapping entries with count ≤ 0 are skipped, so every row of the
resulting mention table either predates the call or carries a positive
count. -/
theorem registrar_menciones_solo_positivos (bd : BD) (pagina_id : Nat)
    (menciones_por_termino : List (List Char × Int)) :
    ∀ row ∈ (registrar_menciones bd pagina_id menciones_por_termino).menciones,
      row ∈ bd.menciones ∨ 0 < row.2.2 := by
  unfold registrar_menciones
  by_cases hpag : (!bd.paginas.any (fun p => p.id == pagina_id)) = true
  · rw [if_pos hpag]
    exact fun row h => Or.inl h
  · rw [if_neg hpag]
    refine foldl_inv _ (fun acc => ∀ row ∈ acc.menciones, row ∈ bd.menciones ∨ 0 < row.2.2)
      ?_ menciones_por_termino bd (fun row h => Or.inl h)
    intro b kv hb
    by_cases hc : kv.2 ≤ 0
    · simp only [if_pos hc]
      exact hb
    · simp only [if_neg hc]
      have hm : (obtener_o_crear_termino b kv.1).1.menciones = b.menciones :=
        obtener_o_crear_menciones b kv.1
      by_cases hex : (obtener_o_crear_termino b kv.1).1.menciones.any
          (fun m => m.1 == pagina_id && m.2.1 == (obtener_o_crear_termino b kv.1).2) = true
      · rw [if_pos hex]
        intro row hrow
        simp only [List.mem_map] at hrow
        obtain ⟨m, hmem, hme⟩ := hrow
        by_cases hcond : (m.1 == pagina_id && m.2.1 == (obtener_o_crear_termino b kv.1).2) = true
        · rw [if_pos hcond] at hme
          right
          rw [← hme]
          show (0 : Int) < kv.2
          omega
        · rw [if_neg hcond] at hme
          rw [hm] at hmem
          exact hb row (hme ▸ hmem)
      · rw [if_neg hex]
        intro row hrow
        rcases List.mem_append.1 hrow with hrow | hrow
        · rw [hm] at hrow
          exact hb row hrow
        · simp only [List.mem_singleton] at hrow
          right
          rw [hrow]
          show (0 : Int) < kv.2
          omega

/-! ## The orchestrator -/

/-- `"Normal"` is not a key of the integer-keyed `PROFUNDIDAD_OPCIONES`, so
Python's eager evaluation of the `.get` default at line 414 raises
`KeyError: 'Normal'`. -/
theorem normal_key_error :
    pyDictIndex PROFUNDIDAD_OPCIONES (Clave.str "Normal") =
      Except.error (ErrPy.keyError (Clave.str "Normal")) := by
  rfl

/-- C9: an effectively empty term group short-circuits the orchestrator: for
every collaborator bundle (in particular regardless of what the search
client would return) it yields the empty page table, the empty word table
and the placeholder summary, and leaves storage untouched. -/
theorem grupo_vacio_devuelve_vacio (colab : Colaboradores) (grupo : List (List Char))
    (fecha_desde fecha_hasta : List Char) (profundidad : Nat) (modo : String)
    (dominio_filtro : Option (List Char)) (top_n : Nat)
    (incluir_paginas_sin_fecha crawl_extendido : Bool) (bd : BD)
    (h : normalizar_grupo_terminos grupo = []) :
    analizar_menciones_web colab grupo fecha_desde fecha_hasta profundidad modo
        dominio_filtro top_n incluir_paginas_sin_fecha crawl_extendido bd =
      (Except.ok { paginas := [], top_palabras := [], resumen := none }, bd) := by
  unfold analizar_menciones_web
  rw [h]
  rfl

/-- C5: a counting-mode string outside `MODOS_COINCIDENCIA_VALIDOS` makes
the whole run behave exactly as `frase_exacta` mode. -/
theorem modo_desconocido_cae_a_frase_exacta (colab : Colaboradores)
    (grupo : List (List Char)) (fecha_desde fecha_hasta : List Char) (profundidad : Nat)
    (modo : String) (dominio_filtro : Option (List Char)) (top_n : Nat)
    (incluir_paginas_sin_fecha crawl_extendido : Bool) (bd : BD)
    (h : modo ∉ MODOS_COINCIDENCIA_VALIDOS) :
    analizar_menciones_web colab grupo fecha_desde fecha_hasta profundidad modo
        dominio_filtro top_n incluir_paginas_sin_fecha crawl_extendido bd =
      analizar_menciones_web colab grupo fecha_desde fecha_hasta profundidad "frase_exacta"
        dominio_filtro top_n incluir_paginas_sin_fecha crawl_extendido bd := by
  have e1 : (if MODOS_COINCIDENCIA_VALIDOS.contains modo = true
      then modo else "frase_exacta") = "frase_exacta" := by
    rw [if_neg]
    intro hc
    exact h (by simpa using hc)
  have e2 : (if MODOS_COINCIDENCIA_VALIDOS.contains "frase_exacta" = true
      then "frase_exacta" else "frase_exacta") = "frase_exacta" := ite_self _
  simp only [analizar_menciones_web, e1, e2]

/-! ## Zero-mention pages never survive, are never persisted, and never
feed the word table (C2) -/

theorem procesar_y_persistir_mt (colab : Colaboradores) (grupo : List (List Char))
    (modo : String) :
    ∀ (res : List ResultadoBusqueda) (bd : BD),
      ∀ r ∈ (procesar_y_persistir colab grupo modo res bd).1,
        r.menciones_totales_pagina ≠ 0 := by
  intro res
  induction res with
  | nil =>
    intro bd r hr
    simp [procesar_y_persistir] at hr
  | cons resultado resto ih =>
    intro bd r hr
    cases hp : procesar_resultado resultado grupo modo with
    | none =>
      rw [procesar_y_persistir, hp] at hr
      exact ih bd r hr
    | some reg =>
      rw [procesar_y_persistir, hp] at hr
      rcases List.mem_cons.1 hr with rfl | hr
      · exact (procesar_resultado_some hp).2.2
      · exact ih _ r hr

theorem procesar_y_persistir_bd (colab : Colaboradores) (grupo : List (List Char))
    (modo : String) :
    ∀ (res : List ResultadoBusqueda) (bd : BD),
      (procesar_y_persistir colab grupo modo res bd).2 =
        (procesar_y_persistir colab grupo modo res bd).1.foldl persistir_registro bd := by
  intro res
  induction res with
  | nil => intro bd; rfl
  | cons resultado resto ih =>
    intro bd
    cases hp : procesar_resultado resultado grupo modo with
    | none =>
      rw [procesar_y_persistir, hp]
      exact ih bd
    | some reg =>
      rw [procesar_y_persistir, hp]
      rw [List.foldl_cons]
      exact ih _

theorem contar_palabras_filtro_idem (stopwords_es : List (List Char)) (df : List Registro)
    (grupo_terminos : List (List Char)) (top_n : Nat) :
    contar_palabras_asociadas stopwords_es
        (df.filter (fun r => 0 < r.menciones_totales_pagina)) grupo_terminos top_n =
      contar_palabras_asociadas stopwords_es df grupo_terminos top_n := by
  by_cases hdf : df = []
  · subst hdf
    rfl
  · have hguard2 : ¬df.isEmpty = true := by
      rw [List.isEmpty_iff]
      exact hdf
    by_cases hemp : df.filter (fun r => decide (0 < r.menciones_totales_pagina)) = []
    · rw [hemp]
      rw [show contar_palabras_asociadas stopwords_es [] grupo_terminos top_n = ([], [])
        from rfl]
      unfold contar_palabras_asociadas
      rw [if_neg hguard2, hemp]
      simp [generar_palabras_limpias, counterOf, mostCommon, List.mergeSort_nil]
    · have hguard1 : ¬(df.filter (fun r => decide (0 < r.menciones_totales_pagina))).isEmpty
          = true := by
        rw [List.isEmpty_iff]
        exact hemp
      have key : (df.filter (fun r => decide (0 < r.menciones_totales_pagina))).filter
            (fun r => decide (0 < r.menciones_totales_pagina)) =
          df.filter (fun r => decide (0 < r.menciones_totales_pagina)) := by
        apply List.filter_eq_self.mpr
        intro a ha
        exact (List.mem_filter.1 ha).2
      unfold contar_palabras_asociadas
      rw [if_neg hguard1, if_neg hguard2, key]

/-- Observable behaviour of a run: the stored state is exactly the fold of
the per-page persistence over the surviving records (all of which have a
non-zero total), and the returned value is either the `KeyError` raised at
the summary construction or a success carrying an empty page table. -/
theorem analizar_observable (colab : Colaboradores) (grupo : List (List Char))
    (fecha_desde fecha_hasta : List Char) (profundidad : Nat) (modo : String)
    (dominio_filtro : Option (List Char)) (top_n : Nat)
    (incluir_paginas_sin_fecha crawl_extendido : Bool) (bd : BD) :
    ∃ rs : List Registro,
      (∀ r ∈ rs, r.menciones_totales_pagina ≠ 0) ∧
      (analizar_menciones_web colab grupo fecha_desde fecha_hasta profundidad modo
          dominio_filtro top_n incluir_paginas_sin_fecha crawl_extendido bd).2 =
        rs.foldl persistir_registro bd ∧
      ((analizar_menciones_web colab grupo fecha_desde fecha_hasta profundidad modo
          dominio_filtro top_n incluir_paginas_sin_fecha crawl_extendido bd).1 =
          Except.error (ErrPy.keyError (Clave.str "Normal")) ∨
        ∃ salida, (analizar_menciones_web colab grupo fecha_desde fecha_hasta profundidad
            modo dominio_filtro top_n incluir_paginas_sin_fecha crawl_extendido bd).1 =
          Except.ok salida ∧ salida.paginas = []) := by
  by_cases h1 : normalizar_grupo_terminos grupo = []
  · refine ⟨[], by simp, ?_, Or.inr ⟨{ paginas := [], top_palabras := [], resumen := none },
      ?_, rfl⟩⟩
    · unfold analizar_menciones_web
      rw [h1]
      rfl
    · unfold analizar_menciones_web
      rw [h1]
      rfl
  · dsimp only [analizar_menciones_web]
    rw [if_neg h1]
    set msan : String :=
      if MODOS_COINCIDENCIA_VALIDOS.contains modo = true then modo else "frase_exacta"
      with hmsan
    set res : List ResultadoBusqueda :=
      colab.buscar_paginas_web (normalizar_grupo_terminos grupo) profundidad msan
        dominio_filtro crawl_extendido with hres
    set par : List Registro × BD :=
      procesar_y_persistir colab (normalizar_grupo_terminos grupo) msan res bd with hpar
    refine ⟨par.1, ?_, ?_, ?_⟩
    · rw [hpar]
      exact procesar_y_persistir_mt colab _ _ _ bd
    · by_cases hc : par.1 = []
      · rw [if_pos hc, hpar]
        exact procesar_y_persistir_bd colab _ _ _ bd
      · rw [if_neg hc, normal_key_error, hpar]
        exact procesar_y_persistir_bd colab _ _ _ bd
    · by_cases hc : par.1 = []
      · rw [if_pos hc]
        exact Or.inr ⟨_, rfl, rfl⟩
      · rw [if_neg hc, normal_key_error]
        exact Or.inl rfl

/-- C2: a page with zero total mentions never appears in any successfully
returned page table, is never persisted (storage is the fold of the per-page
persistence over records with non-zero totals only), and contributes nothing
to the top-word table (which is invariant under discarding zero-total rows,
for any input table). -/
theorem paginas_sin_menciones_excluidas (colab : Colaboradores) (grupo : List (List Char))
    (fecha_desde fecha_hasta : List Char) (profundidad : Nat) (modo : String)
    (dominio_filtro : Option (List Char)) (top_n : Nat)
    (incluir_paginas_sin_fecha crawl_extendido : Bool) (bd : BD) :
    (∀ salida, (analizar_menciones_web colab grupo fecha_desde fecha_hasta profundidad modo
        dominio_filtro top_n incluir_paginas_sin_fecha crawl_extendido bd).1 =
          Except.ok salida →
      ∀ reg ∈ salida.paginas, reg.menciones_totales_pagina ≠ 0) ∧
    (∃ rs : List Registro, (∀ r ∈ rs, r.menciones_totales_pagina ≠ 0) ∧
      (analizar_menciones_web colab grupo fecha_desde fecha_hasta profundidad modo
          dominio_filtro top_n incluir_paginas_sin_fecha crawl_extendido bd).2 =
        rs.foldl persistir_registro bd) ∧
    (∀ (stopwords_es : List (List Char)) (df : List Registro)
        (grupo2 : List (List Char)) (n : Nat),
      contar_palabras_asociadas stopwords_es
          (df.filter (fun r => 0 < r.menciones_totales_pagina)) grupo2 n =
        contar_palabras_asociadas stopwords_es df grupo2 n) := by
  obtain ⟨rs, hrs, hbd, hres⟩ := analizar_observable colab grupo fecha_desde fecha_hasta
    profundidad modo dominio_filtro top_n incluir_paginas_sin_fecha crawl_extendido bd
  refine ⟨?_, ⟨rs, hrs, hbd⟩, fun sw df g n => contar_palabras_filtro_idem sw df g n⟩
  intro salida hok reg hreg
  rcases hres with herr | ⟨salida2, hok2, hpag⟩
  · rw [herr] at hok
    cases hok
  · rw [hok2] at hok
    injection hok with hok
    subst hok
    rw [hpag] at hreg
    simp at hreg

/-! ## The sorted-table claim never gets to return (C7) -/

set_option maxHeartbeats 1000000 in
/-- C7 (code bug evidence): a concrete run whose loop keeps exactly one
surviving page does not return any sorted page table — the summary
construction evaluates `PROFUNDIDAD_OPCIONES["Normal"]` (the eagerly
evaluated `.get` default of line 414) on the integer-keyed dict and raises
`KeyError: 'Normal'`. -/
theorem corrida_no_vacia_lanza_keyerror :
    (analizar_menciones_web colabPrueba ["gato".toList] [] [] 3 "frase_exacta" none 30
        true false bdVacia).1 =
      Except.error (ErrPy.keyError (Clave.str "Normal")) ∧
    (procesar_y_persistir colabPrueba ["gato".toList] "frase_exacta"
        (colabPrueba.buscar_paginas_web ["gato".toList] 3 "frase_exacta" none false)
        bdVacia).1.length = 1 := by
  exact ⟨rfl, rfl⟩

/-! ## Witnesses -/

set_option maxHeartbeats 1000000 in
theorem total_es_suma_por_termino_prueba :
    procesar_resultado resultadoGato ["gato".toList] "frase_exacta" = some registroGato ∧
    (registroGato.menciones_totales_pagina =
        (registroGato.menciones_por_termino.map (·.2)).sum ∧
      (∀ t, t ∈ dictKeys registroGato.menciones_por_termino ↔ t ∈ ["gato".toList]) ∧
      (dictKeys registroGato.menciones_por_termino).Nodup) :=
  ⟨rfl, total_es_suma_por_termino resultadoGato ["gato".toList] "frase_exacta"
    registroGato rfl⟩

set_option maxHeartbeats 1000000 in
theorem frase_exacta_cuenta_ocurrencias_prueba :
    (limpiar_texto "gato".toList ≠ [] ∧
      ∀ p ∈ ocurrencias "el gato subio al tejado y el gato bajo".toList
          (limpiar_texto "gato".toList),
        ∀ q ∈ ocurrencias "el gato subio al tejado y el gato bajo".toList
            (limpiar_texto "gato".toList),
          p < q → p + (limpiar_texto "gato".toList).length ≤ q) ∧
    contar_menciones_termino "el gato subio al tejado y el gato bajo".toList
        "gato".toList "frase_exacta" =
      (ocurrencias "el gato subio al tejado y el gato bajo".toList
          (limpiar_texto "gato".toList)).card :=
  ⟨⟨by decide, by decide⟩,
    frase_exacta_cuenta_ocurrencias "el gato subio al tejado y el gato bajo".toList
      "gato".toList (by decide) (by decide)⟩

set_option maxHeartbeats 1000000 in
theorem todas_las_palabras_es_minimo_prueba :
    limpiar_texto "Gato negro".toList ≠ [] ∧
    ((∀ p ∈ pySplit (limpiar_texto "Gato negro".toList),
        contar_menciones_termino "el gato y el gato".toList "Gato negro".toList
            "todas_las_palabras" ≤ (pySplit "el gato y el gato".toList).count p) ∧
      ∃ p ∈ pySplit (limpiar_texto "Gato negro".toList),
        contar_menciones_termino "el gato y el gato".toList "Gato negro".toList
            "todas_las_palabras" = (pySplit "el gato y el gato".toList).count p) :=
  ⟨by decide, todas_las_palabras_es_minimo "el gato y el gato".toList
    "Gato negro".toList (by decide)⟩

set_option maxHeartbeats 1000000 in
theorem modo_desconocido_cae_a_frase_exacta_prueba :
    "exact_phrase" ∉ MODOS_COINCIDENCIA_VALIDOS ∧
    analizar_menciones_web colabPrueba ["gato".toList] [] [] 3 "exact_phrase" none 30
        true false bdVacia =
      analizar_menciones_web colabPrueba ["gato".toList] [] [] 3 "frase_exacta" none 30
        true false bdVacia :=
  ⟨by decide, modo_desconocido_cae_a_frase_exacta colabPrueba ["gato".toList] [] [] 3
    "exact_phrase" none 30 true false bdVacia (by decide)⟩

theorem grupo_vacio_devuelve_vacio_prueba :
    normalizar_grupo_terminos [" ".toList] = [] ∧
    analizar_menciones_web colabPrueba [" ".toList] [] [] 3 "frase_exacta" none 30
        true false bdVacia =
      (Except.ok { paginas := [], top_palabras := [], resumen := none }, bdVacia) :=
  ⟨by decide, grupo_vacio_devuelve_vacio colabPrueba [" ".toList] [] [] 3 "frase_exacta"
    none 30 true false bdVacia (by decide)⟩

theorem registrar_menciones_solo_positivos_prueba :
    ((1, 1, (2 : Int)) ∈ (registrar_menciones bdPrueba 1 mptPrueba).menciones) ∧
    ((1, 1, (2 : Int)) ∈ bdPrueba.menciones ∨ 0 < ((1, 1, (2 : Int)) : Nat × Nat × Int).2.2) :=
  ⟨by decide, registrar_menciones_solo_positivos bdPrueba 1 mptPrueba (1, 1, 2) (by decide)⟩

theorem paginas_sin_menciones_excluidas_prueba :
    contar_palabras_asociadas []
        ([registroCero].filter (fun r => 0 < r.menciones_totales_pagina))
        ["gato".toList] 5 =
      contar_palabras_asociadas [] [registroCero] ["gato".toList] 5 :=
  (paginas_sin_menciones_excluidas colabPrueba ["gato".toList] [] [] 3 "frase_exacta"
    none 30 true false bdVacia).2.2 [] [registroCero] ["gato".toList] 5

end BuscadorMenciones
